import Mathlib

/-!
# infiniray: a ring array over a mirrored memory block

A shallow embedding of `include/infiniray/infinite-array.h` and of the mirror check and
the release of the block in `include/infiniray/mirror-mmap.h`.

* The mirrored block returned by the allocator is a `Block`: one shared storage of
  `bytes` cells which is visible twice, so that the raw byte offsets `k` and
  `k + bytes` are the same cell.  Raw offsets are counted in bytes from `data_`.
* An element is its object representation, a list of `sizeof(T)` bytes.
* Pointers and references into the block are raw byte offsets.
* `size_type` values are natural numbers: the development covers executions in which
  no counter reaches `2^64` (`pos_` grows by one per evicted element).
* A member function takes the array and returns an `Outcome` together with the
  array it leaves behind; `thrown` is `infiniray_throw_or_abort` with exceptions on.
* `constructed` and `destructed` are ghost logs of the raw offsets at which
  `allocator_traits::construct` and `~value_type()` were invoked.
-/

namespace infinite

/-- Object representation of one element. -/
abbrev Elem := List Nat

/-- The exceptions passed to `infiniray_throw_or_abort` by the container. -/
inductive Error
  | out_of_range
  | length_error
  deriving DecidableEq

/-- How a call ends: it returns, it throws, or it has no defined result
(a loop that never reaches its exit test, a pointer that leaves the block). -/
inductive Outcome (α : Type)
  | ok (x : α)
  | thrown (e : Error)
  | undefined
  deriving DecidableEq

namespace detail

/-- `detail::roundup`. -/
def roundup (value measure : Nat) : Nat :=
  measure * ((value + measure - 1) / measure)

/-- `detail::mulmod`. -/
def mulmod (a b mod : Nat) : Nat :=
  ((a % mod) * (b % mod)) % mod

end detail

/-- The memory handed out by `default_allocator_backend::allocate(bytes)`: the
storage behind the two adjacent mappings of `bytes` bytes each. -/
structure Block where
  bytes : Nat
  cell : Nat → Nat

namespace Block

/-- Read the byte at raw offset `k`: offsets `k` and `k + bytes` are the same cell
(the mapping itself covers the offsets below `2 * bytes`). -/
def peek (m : Block) (k : Nat) : Nat := m.cell (k % m.bytes)

/-- Write the byte `b` at raw offset `k`. -/
def poke (m : Block) (k b : Nat) : Block :=
  { m with cell := fun c => if c = k % m.bytes then b else m.cell c }

/-- Read `n` consecutive bytes starting at raw offset `off`. -/
def load (m : Block) (off n : Nat) : Elem :=
  (List.range n).map (fun j => m.peek (off + j))

/-- Write the bytes of `v` at consecutive raw offsets starting at `off`. -/
def store (m : Block) (off : Nat) : Elem → Block
  | [] => m
  | b :: bs => (m.poke off b).store (off + 1) bs

end Block

/-- What the container asks of its element type `T`. -/
structure value_type where
  sizeof : Nat
  alignof : Nat
  is_trivially_destructible : Bool
  is_trivially_default_constructible : Bool
  /-- The object representation of `value_type{}`. -/
  init : Elem

/-- `allocation_result<T*, size_type>`. -/
structure allocation_result where
  ptr : Block
  count : Nat
  size : Nat

namespace default_allocator_backend

/-- A successful `default_allocator_backend::allocate`: a validated mirror over a
freshly truncated (zero filled) temporary file. -/
def allocate (size_bytes : Nat) : Block :=
  { bytes := size_bytes, cell := fun _ => 0 }

end default_allocator_backend

namespace allocator

/-- `allocator::array_size`. -/
def array_size (T : value_type) (n : Nat) : Nat := n * T.sizeof

/-- `allocator::allocate_at_least`, for a backend whose `pagesize()` is `pagesize`. -/
def allocate_at_least (T : value_type) (pagesize n : Nat) : allocation_result :=
  let buffer_size := detail.roundup (array_size T n) pagesize
  { ptr := default_allocator_backend.allocate buffer_size,
    count := buffer_size / T.sizeof,
    size := buffer_size }

end allocator

/-- `infinite::array<T>`.  `buffer_size_` is only read when `sizeof(T)` is not a
power of two (it is a `novalue` otherwise). -/
structure array where
  T : value_type
  data_ : Block
  capacity_ : Nat
  buffer_size_ : Nat
  pos_ : Nat
  size_ : Nat
  constructed : List Nat
  destructed : List Nat

namespace array

/-- `array(allocation_result&&)`. -/
def of_allocation (T : value_type) (alloc : allocation_result) : array :=
  { T := T, data_ := alloc.ptr, capacity_ := alloc.count, buffer_size_ := alloc.size,
    pos_ := 0, size_ := 0, constructed := [], destructed := [] }

/-- `array(size_type capacity_elements)`. -/
def create (T : value_type) (pagesize capacity_elements : Nat) : array :=
  of_allocation T (allocator.allocate_at_least T pagesize capacity_elements)

/-- `sizeof_value_type_is_power_of`. -/
def sizeof_value_type_is_power_of (T : value_type) : Bool :=
  (2 ^ 63) % T.sizeof == 0

def capacity (a : array) : Nat := a.capacity_

def size (a : array) : Nat := a.size_

def empty (a : array) : Bool := a.size_ == 0

/-- `begin()` / `cbegin()`: the raw offset of the first live element. -/
def begin (a : array) : Nat :=
  if sizeof_value_type_is_power_of a.T then
    (a.pos_ % a.capacity_) * a.T.sizeof
  else
    detail.mulmod a.pos_ a.T.sizeof a.buffer_size_

/-- `end()` / `cend()`. -/
def end_ (a : array) : Nat := a.begin + a.size_ * a.T.sizeof

/-- The value of the object a reference (raw offset) designates. -/
def deref (a : array) (p : Nat) : Elem := a.data_.load p a.T.sizeof

/-- `operator[]`: the reference `begin()[pos]`. -/
def index (a : array) (pos : Nat) : Nat := a.begin + pos * a.T.sizeof

/-- `at`: the reference `begin()[pos]`, after the bounds check. -/
def at_ (a : array) (pos : Nat) : Outcome Nat × array :=
  if pos ≥ a.size_ then (.thrown .out_of_range, a)
  else (.ok (a.begin + pos * a.T.sizeof), a)

/-- `front()`. -/
def front (a : array) : Nat := a.begin + 0 * a.T.sizeof

/-- `back()`. -/
def back (a : array) : Nat := a.begin + a.size_ * a.T.sizeof

/-- `data()`. -/
def data (a : array) : Nat := a.begin

/-- `allocator_traits_::construct(allocator, p, value)`. -/
def construct (a : array) (p : Nat) (value : Elem) : array :=
  { a with data_ := a.data_.store p value, constructed := a.constructed ++ [p] }

/-- `emplace_back(args...)` with one argument. -/
def emplace_back (a : array) (value : Elem) : Outcome Unit × array :=
  if a.size_ ≥ a.capacity_ then (.thrown .length_error, a)
  else
    let p := ((a.pos_ + a.size_) % a.capacity_) * a.T.sizeof
    (.ok (), construct { a with size_ := a.size_ + 1 } p value)

/-- `push_back(const value_type&)` and `push_back(value_type&&)`. -/
def push_back (a : array) (value : Elem) : Outcome Unit × array :=
  if a.size_ ≥ a.capacity_ then (.thrown .length_error, a)
  else
    let p := ((a.pos_ + a.size_) % a.capacity_) * a.T.sizeof
    (.ok (), construct { a with size_ := a.size_ + 1 } p value)

/-- `append(first, last)` and `append(const Container&)`, the range given as the
list of the values it yields. -/
def append : array → List Elem → Outcome Unit × array
  | a, [] => (.ok (), a)
  | a, v :: rest =>
    match emplace_back a v with
    | (.ok _, a1) => append a1 rest
    | r => r

/-- `append(std::initializer_list<T>)`. -/
def append_ilist : array → List Elem → Outcome Unit × array
  | a, [] => (.ok (), a)
  | a, v :: rest =>
    match push_back a v with
    | (.ok _, a1) => append_ilist a1 rest
    | r => r

/-- The loop of `destruct(rstart, rfinish)`, at most `fuel` iterations.  A pointer that
would step below `data_` has left the block.  Every caller passes at most `size()`
elements between `rfinish` and `rstart` when the loop returns, so `size_--` is then
never applied to zero. -/
def destruct_loop : Nat → array → Nat → Nat → Outcome Unit × array
  | 0, a, rstart, rfinish =>
    if rstart = rfinish then (.ok (), a) else (.undefined, a)
  | fuel + 1, a, rstart, rfinish =>
    if rstart = rfinish then (.ok (), a)
    else if rstart < a.T.sizeof then (.undefined, a)
    else
      let p := rstart - a.T.sizeof
      destruct_loop fuel
        { a with destructed := a.destructed ++ [p], size_ := a.size_ - 1 } p rfinish

/-- `destruct(rstart, rfinish)`.  Every iteration moves `rstart` down by one
element, so the loop either stops within `rstart - rfinish` iterations or never. -/
def destruct (a : array) (rstart rfinish : Nat) : Outcome Unit × array :=
  destruct_loop (rstart - rfinish) a rstart rfinish

/-- `clear()`. -/
def clear (a : array) : Outcome Unit × array :=
  if !a.T.is_trivially_destructible then
    match destruct a a.end_ a.begin with
    | (.ok _, a1) => (.ok (), { a1 with size_ := 0, pos_ := 0 })
    | r => r
  else (.ok (), { a with size_ := 0, pos_ := 0 })

/-- `erase(n)`. -/
def erase (a : array) (n : Nat) : Outcome Unit × array :=
  if !a.T.is_trivially_destructible then
    destruct a a.end_ (a.begin + n * a.T.sizeof)
  else
    let n := min a.size_ n
    (.ok (), { a with size_ := a.size_ - n, pos_ := a.pos_ + n })

/-- The loop `while(size_ != count) emplace_back(value);`, at most `fuel` iterations. -/
def resize_loop : Nat → array → Nat → Elem → Outcome Unit × array
  | 0, a, count, _ =>
    if a.size_ = count then (.ok (), a) else (.undefined, a)
  | fuel + 1, a, count, value =>
    if a.size_ = count then (.ok (), a)
    else
      match emplace_back a value with
      | (.ok _, a1) => resize_loop fuel a1 count value
      | r => r

/-- `resize(count, value)`.  In the shrinking branch `end() + (count - size_)` is
`end()` moved down by `size_ - count` elements. -/
def resize_fill (a : array) (count : Nat) (value : Elem) : Outcome Unit × array :=
  if count > a.capacity_ then (.thrown .length_error, a)
  else if count = 0 then clear a
  else if count = a.size_ then (.ok (), a)
  else if count > a.size_ then resize_loop (count - a.size_) a count value
  else if a.T.is_trivially_destructible then (.ok (), { a with size_ := count })
  else destruct a a.end_ (a.end_ - (a.size_ - count) * a.T.sizeof)

/-- `resize(count)`. -/
def resize (a : array) (count : Nat) : Outcome Unit × array :=
  if count > a.capacity_ then (.thrown .length_error, a)
  else if count = 0 then clear a
  else if count = a.size_ then (.ok (), a)
  else if count > a.size_ then
    if a.T.is_trivially_default_constructible && a.T.is_trivially_destructible then
      (.ok (), { a with size_ := count })
    else resize_fill a count a.T.init
  else if a.T.is_trivially_destructible then (.ok (), { a with size_ := count })
  else destruct a a.end_ (a.end_ - (a.size_ - count) * a.T.sizeof)

/-- The live elements in logical order: `(*this)[0], ..., (*this)[size()-1]`. -/
def contents (a : array) : List Elem :=
  (List.range a.size_).map (fun i => a.deref (a.index i))

/-- The state invariant: what the constructor establishes on a platform whose page
size is a power of two, together with `size() <= capacity()`. -/
def wf (a : array) : Prop :=
  0 < a.T.sizeof ∧ 0 < a.capacity_ ∧ a.size_ ≤ a.capacity_ ∧
  a.capacity_ = a.data_.bytes / a.T.sizeof ∧
  (if sizeof_value_type_is_power_of a.T then a.capacity_ * a.T.sizeof = a.data_.bytes
   else a.buffer_size_ = a.data_.bytes)

instance (a : array) : Decidable (wf a) := by
  unfold wf; infer_instance

/-- `std::countr_zero` on a 64 bit word, `bits` bits still to look at. -/
def countr_zero_loop : Nat → Nat → Nat
  | 0, _ => 0
  | bits + 1, x => if x % 2 = 1 then 0 else 1 + countr_zero_loop bits (x / 2)

/-- `std::countr_zero(sizeof(T))`. -/
def countr_zero (x : Nat) : Nat := countr_zero_loop 64 x

/-- `value_type_has_acceptable_alignment()`. -/
def value_type_has_acceptable_alignment (T : value_type) : Bool :=
  decide (T.alignof ≤ 1 <<< countr_zero T.sizeof)

/-- The condition of the `static_assert` in `array`. -/
def wraps_safely (T : value_type) : Bool :=
  sizeof_value_type_is_power_of T || value_type_has_acceptable_alignment T

end array

/-- A call a client makes on the container in the eviction scenario. -/
inductive Op
  | push_back (v : Elem)
  | append (r : List Elem)
  | erase (n : Nat)

namespace Op

/-- Perform one call. -/
def apply (a : array) : Op → Outcome Unit × array
  | push_back v => a.push_back v
  | append r => a.append r
  | erase n => a.erase n

end Op

/-- `unsigned long long` / `long`. -/
def ulonglong : value_type :=
  { sizeof := 8, alignof := 8, is_trivially_destructible := true,
    is_trivially_default_constructible := true, init := List.replicate 8 0 }

/-- `struct test` of `tests/test-infiniray.cxx`: one `long`, user provided constructors
and destructor. -/
def test : value_type :=
  { sizeof := 8, alignof := 8, is_trivially_destructible := false,
    is_trivially_default_constructible := false, init := List.replicate 8 0 }

/-- A trivial aggregate of three `char`s. -/
def char3 : value_type :=
  { sizeof := 3, alignof := 1, is_trivially_destructible := true,
    is_trivially_default_constructible := true, init := List.replicate 3 0 }

/-- Three `int`s in a row: twelve bytes, aligned as an `int`. -/
def int3 : value_type :=
  { sizeof := 12, alignof := 4, is_trivially_destructible := true,
    is_trivially_default_constructible := true, init := List.replicate 12 0 }

/-- The little endian object representation of a 64 bit integer. -/
def le64 (x : Nat) : Elem := (List.range 8).map (fun j => (x / 256 ^ j) % 256)

/-! ## The refill scenario and the states used in the examples -/

/-- Continue with `f` when the call returned, stop otherwise. -/
def and_then (r : Outcome Unit × array) (f : array → Option array) : Option array :=
  match r with
  | (.ok _, a) => f a
  | _ => none

/-- The array left by `resize(capacity(), A); erase(100); resize(capacity(), B)` on a
fresh array, whatever the calls report. -/
def refill_state (T : value_type) (k m : Nat) (A B : Elem) : array :=
  let a0 := array.create T (2 ^ k) m
  let a1 := (a0.resize_fill a0.capacity_ A).2
  let a2 := (a1.erase 100).2
  (a2.resize_fill a2.capacity_ B).2

/-- The calls `resize(capacity(), A); erase(100); resize(capacity(), B)` on a fresh
array; `none` when one of them does not return. -/
def refill (T : value_type) (k m : Nat) (A B : Elem) : Option array :=
  and_then ((array.create T (2 ^ k) m).resize_fill (array.create T (2 ^ k) m).capacity_ A)
    fun a1 => and_then (a1.erase 100)
    fun a2 => and_then (a2.resize_fill a2.capacity_ B) some

/-- The array the example run leaves behind. -/
def window_result : array :=
  (array.push_back
    (array.erase (array.append (array.create ulonglong (2 ^ 12) 4096)
      [le64 0, le64 1, le64 2]).2 2).2 (le64 3)).2

/-- A full array: `array<unsigned long long> a(4096); a.resize(a.capacity());`. -/
def full_array : array :=
  (array.resize (array.create ulonglong (2 ^ 12) 4096) 4096).2

/-- The state after `array<char3> a(1); a.resize(1365); a.erase(1364);` with 4096 byte
pages: capacity 1365, one live element, `pos_ = 1364`. -/
def char3_state : array :=
  (array.erase (array.resize (array.create char3 (2 ^ 12) 1) 1365).2 1364).2

/-- The state after `array<test> tests{1024}; tests.emplace_back(12); tests.push_back(11);`. -/
def test_state : array :=
  (array.push_back (array.emplace_back (array.create test (2 ^ 12) 1024) (le64 12)).2 (le64 11)).2

/-- The state after `array<unsigned long long> a(4096); a.push_back(5);`. -/
def single_state : array :=
  (array.push_back (array.create ulonglong (2 ^ 12) 4096) (le64 5)).2

/-- A call of one of the public member functions that change the array. -/
inductive Call
  | emplace_back (v : Elem)
  | push_back (v : Elem)
  | append (r : List Elem)
  | append_ilist (r : List Elem)
  | resize (n : Nat)
  | resize_fill (n : Nat) (v : Elem)
  | clear
  | erase (n : Nat)

/-- Perform one call. -/
def Call.apply (a : array) : Call → Outcome Unit × array
  | emplace_back v => a.emplace_back v
  | push_back v => a.push_back v
  | append r => a.append r
  | append_ilist r => a.append_ilist r
  | resize n => a.resize n
  | resize_fill n v => a.resize_fill n v
  | clear => a.clear
  | erase n => a.erase n

/-- The arrays a program can hold on a platform whose page size is `2 ^ k`: a fresh one
(of a type with `sizeof(T) >= 1`, for a request of at least one element), and what any
public call leaves of a reachable one. -/
inductive reachable : array → Prop
  | fresh (T : value_type) (k m : Nat) (hs : 0 < T.sizeof) (hm : 0 < m) :
    reachable (array.create T (2 ^ k) m)
  | step (a : array) (c : Call) (h : reachable a) : reachable (c.apply a).2

end infinite

/-! ## Mirror validation, release of the block, and the fill of the mirror test -/

namespace infinite

/-- The address space as the mirror check sees it: every address is backed by some
storage cell, and a cell holds one byte. -/
structure Memory where
  backing : Nat → Nat
  cell : Nat → Nat

namespace Memory

/-- Read the byte at an address. -/
def read (m : Memory) (addr : Nat) : Nat := m.cell (m.backing addr)

/-- Write a byte at an address. -/
def write (m : Memory) (addr b : Nat) : Memory :=
  { m with cell := fun c => if c = m.backing addr then b else m.cell c }

end Memory

namespace detail

/-- `detail::mirrored_region`: one mapping. -/
structure mirrored_region where
  addr_ : Nat
  size_ : Nat

namespace mirrored_region

/-- The private `is_mirroring_valid(addr1, addr2, size)`; the bytes `0x55` and
`static_cast<char>(0xAA)` are stored and compared as bytes. -/
def is_mirroring_valid_addr (m : Memory) (addr1 addr2 size : Nat) : Bool × Memory :=
  let aa := 0xAA
  if addr2 ≠ addr1 + size then (false, m)
  else
    let m1 := m.write addr1 0
    let m2 := m1.write addr2 0x55
    let m3 := m2.write (addr2 + (size - 1)) 0
    let m4 := m3.write (addr1 + (size - 1)) aa
    if m4.read addr1 = 0x55 ∧ m4.read (addr2 + (size - 1)) = aa then
      let m5 := m4.write addr2 0
      let m6 := m5.write (addr1 + (size - 1)) 0
      (true, m6)
    else (false, m4)

/-- The public `is_mirroring_valid(r1, r2)`. -/
def is_mirroring_valid (m : Memory) (r1 r2 : mirrored_region) : Bool × Memory :=
  is_mirroring_valid_addr m r1.addr_ r2.addr_ r1.size_

/-- `deallocate_mirror(addr, size)`: the `munmap(address, length)` calls, in order. -/
def deallocate_mirror (addr size : Nat) : List (Nat × Nat) :=
  [(addr + size, size), (addr, size), (addr, size * 2)]

end mirrored_region

end detail

namespace default_allocator_backend

/-- `default_allocator_backend::allocate` from the point where the mappings exist, `r1`
and `r2` being the two shared mappings: it returns `r1.take()`, or throws
`std::runtime_error{"mirroring failed"}` (`none`). -/
def allocate_mapped (m : Memory) (r1 r2 : detail.mirrored_region) : Option Nat × Memory :=
  match detail.mirrored_region.is_mirroring_valid m r1 r2 with
  | (true, m1) => (some r1.addr_, m1)
  | (false, m1) => (none, m1)

/-- `default_allocator_backend::deallocate(addr, bytes)`, for the given `pagesize()`. -/
def deallocate (pagesize addr bytes : Nat) : List (Nat × Nat) :=
  detail.mirrored_region.deallocate_mirror addr (detail.roundup bytes pagesize)

end default_allocator_backend

namespace allocator

/-- `allocator::deallocate(p, n)`. -/
def deallocate (T : value_type) (pagesize p n : Nat) : List (Nat × Nat) :=
  default_allocator_backend.deallocate pagesize p (array_size T n)

end allocator

namespace array

/-- `~array()`: destruct what is live, then hand the block at address `base` back; the
result lists the `munmap` calls. -/
def destructor (a : array) (pagesize base : Nat) : Outcome (List (Nat × Nat)) × array :=
  match destruct a a.end_ a.begin with
  | (.ok _, a1) => (.ok (allocator.deallocate a1.T pagesize base a1.capacity_), a1)
  | (.thrown e, a1) => (.thrown e, a1)
  | (.undefined, a1) => (.undefined, a1)

/-- Array `b` is over the same block and of the same element type and capacity as `a`. -/
def same_block (a b : array) : Prop :=
  b.T = a.T ∧ b.capacity_ = a.capacity_ ∧ b.buffer_size_ = a.buffer_size_ ∧
  b.data_.bytes = a.data_.bytes

/-- The number of elements constructed in the storage and not destructed since. -/
def live_count (a : array) : Nat := a.constructed.length - a.destructed.length

/-- The balance of constructions and destructions: no more destructions than
constructions, and exactly `size()` elements constructed and not destructed since. -/
def balanced (a : array) : Prop :=
  a.constructed.length = a.destructed.length + a.size_

/-- The loop of `std::generate(first, last, g)` over the array's own storage, `g l`
being what the `l`-th call of the generator returns. -/
def generate_loop (g : Nat → Elem) : Nat → array → Nat → Nat → array
  | 0, a, _, _ => a
  | fuel + 1, a, first, l =>
    if first = a.end_ then a
    else generate_loop g fuel { a with data_ := a.data_.store first (g l) }
      (first + a.T.sizeof) (l + 1)

/-- `std::generate(begin(), end(), g)`. -/
def generate (a : array) (g : Nat → Elem) : array :=
  generate_loop g a.size_ a a.begin 0

end array

/-- The little endian object representation of a 24 bit integer. -/
def le24 (x : Nat) : Elem := (List.range 3).map (fun j => (x / 256 ^ j) % 256)

/-- The mirror test up to its fill: `array<T> buffer(n); buffer.resize(buffer.capacity());
std::generate(buffer.begin(), buffer.end(), g)`. -/
def mirror_fill (T : value_type) (pagesize n : Nat) (g : Nat → Elem) : array :=
  array.generate
    ((array.create T pagesize n).resize (array.create T pagesize n).capacity_).2 g

/-- The state of the mirror test: `array<long long> buffer(4096)`, resized to its
capacity 4096 and filled with `++counter`. -/
def mirror_state : array :=
  mirror_fill ulonglong (2 ^ 12) 4096 (fun l => le64 (l + 1))

/-- The mirror test on three byte elements and 4096 byte pages: `array<char3> b(1)`,
resized to its capacity 1365 and filled with `++counter`. -/
def char3_mirror_state : array :=
  mirror_fill char3 (2 ^ 12) 1 (fun l => le24 (l + 1))

/-- The state after `array<test> t{1024};`. -/
def test_empty : array := array.create test (2 ^ 12) 1024

/-- The state after `array<test> t{1024}; t.emplace_back(12);`. -/
def test_one : array :=
  (array.emplace_back (array.create test (2 ^ 12) 1024) (le64 12)).2

/-- A memory in which the addresses `a` and `a + 4096` are backed by the same cell:
a shared file of 4096 bytes mapped twice, back to back. -/
def mirrored_memory : Memory :=
  { backing := fun addr => addr % 4096, cell := fun c => c % 7 }

/-- The first of two mappings of 4096 bytes placed back to back. -/
def lower_half : detail.mirrored_region := { addr_ := 0, size_ := 4096 }

/-- The second of two mappings of 4096 bytes placed back to back. -/
def upper_half : detail.mirrored_region := { addr_ := 4096, size_ := 4096 }

/-- A memory in which every address has a cell of its own. -/
def plain_memory : Memory :=
  { backing := fun addr => addr, cell := fun _ => 0 }

end infinite

/-! ## Memory and arithmetic lemmas -/

namespace infinite
namespace Block

theorem poke_bytes (m : Block) (k b : Nat) : (m.poke k b).bytes = m.bytes := rfl

theorem store_bytes (m : Block) (off : Nat) (v : Elem) : (m.store off v).bytes = m.bytes := by
  induction v generalizing m off with
  | nil => rfl
  | cons b bs ih => simp [store, ih, poke_bytes]

theorem peek_store_of_ne (m : Block) (off k : Nat) (v : Elem)
    (h : ∀ j, j < v.length → (off + j) % m.bytes ≠ k % m.bytes) :
    (m.store off v).peek k = m.peek k := by
  induction v generalizing m off with
  | nil => rfl
  | cons b bs ih =>
    have h0 := h 0 (by simp)
    simp only [store]
    rw [ih]
    · simp only [peek, poke]
      rw [if_neg]
      intro hc
      exact h0 (by simpa using hc.symm)
    · intro j hj
      rw [poke_bytes]
      have := h (j + 1) (by simpa using hj)
      rwa [show off + 1 + j = off + (j + 1) by omega]

theorem mod_add_ne (c p d : Nat) (h0 : 0 < d) (h1 : d < c) : (p + d) % c ≠ p % c := by
  intro h
  have h2 := Nat.sub_mod_eq_zero_of_mod_eq h
  rw [Nat.add_sub_cancel_left, Nat.mod_eq_of_lt h1] at h2
  omega

theorem peek_store_at (m : Block) (off : Nat) (v : Elem) (j : Nat) (hj : j < v.length)
    (hv : v.length ≤ m.bytes) : (m.store off v).peek (off + j) = v[j] := by
  induction v generalizing m off j with
  | nil => simp at hj
  | cons b bs ih =>
    simp only [store]
    cases j with
    | zero =>
      rw [peek_store_of_ne]
      · simp [peek, poke]
      · intro j hj2
        rw [poke_bytes, Nat.add_assoc]
        simp only [List.length_cons] at hv
        exact mod_add_ne _ _ _ (by omega) (by omega)
    | succ j =>
      have := ih (m.poke off b) (off + 1) j (by simpa using hj)
        (by rw [poke_bytes]; simp only [List.length_cons] at hv; omega)
      rw [show off + (j + 1) = off + 1 + j by omega, this]
      simp

theorem load_length (m : Block) (off n : Nat) : (m.load off n).length = n := by
  simp [load]

theorem load_congr (m : Block) (off off2 n : Nat) (h : off % m.bytes = off2 % m.bytes) :
    m.load off n = m.load off2 n := by
  simp only [load, peek]
  apply List.map_congr_left
  intro j _
  rw [Nat.add_mod, h, ← Nat.add_mod]

theorem load_store_same (m : Block) (off off2 : Nat) (v : Elem) (hv : v.length ≤ m.bytes)
    (h : off2 % m.bytes = off % m.bytes) : (m.store off v).load off2 v.length = v := by
  rw [load_congr _ off2 off _ (by rw [store_bytes]; exact h)]
  apply List.ext_getElem
  · simp [load]
  · intro j h1 h2
    simp only [load, List.getElem_map, List.getElem_range]
    exact peek_store_at m off v j h2 hv

theorem load_store_of_disjoint (m : Block) (off off2 n : Nat) (v : Elem)
    (h : ∀ j, j < v.length → ∀ i, i < n → (off + j) % m.bytes ≠ (off2 + i) % m.bytes) :
    (m.store off v).load off2 n = m.load off2 n := by
  simp only [load]
  apply List.map_congr_left
  intro i hi
  exact peek_store_of_ne m off (off2 + i) v (fun j hj => h j hj i (List.mem_range.1 hi))

end Block
end infinite

namespace infinite
namespace array

theorem slot_mod (x s c j : Nat) (hc : 0 < c) (hj : j < s) :
    (x * s + j) % (c * s) = (x % c) * s + j := by
  have h1 : x * s + j = ((x % c) * s + j) + (c * s) * (x / c) := by
    conv_lhs => rw [← Nat.mod_add_div x c]
    ring
  rw [h1, Nat.add_mul_mod_self_left, Nat.mod_eq_of_lt]
  have h2 : x % c < c := Nat.mod_lt _ hc
  calc (x % c) * s + j < (x % c) * s + s := by omega
    _ = (x % c + 1) * s := by ring
    _ ≤ c * s := Nat.mul_le_mul_right _ h2

theorem slot_inj (A B s j k : Nat) (hj : j < s) (hk : k < s) (h : A * s + j = B * s + k) :
    A = B := by
  have hs : 0 < s := by omega
  have h1 : (A * s + j) / s = A := by
    rw [Nat.mul_comm, Nat.mul_add_div hs, Nat.div_eq_of_lt hj, Nat.add_zero]
  have h2 : (B * s + k) / s = B := by
    rw [Nat.mul_comm, Nat.mul_add_div hs, Nat.div_eq_of_lt hk, Nat.add_zero]
  rw [← h1, ← h2, h]

theorem begin_fast (a : array) (hp : sizeof_value_type_is_power_of a.T = true) :
    a.begin = (a.pos_ % a.capacity_) * a.T.sizeof := by
  simp [begin, hp]

theorem emplace_back_ok (a : array) (v : Elem) (hlt : a.size_ < a.capacity_) :
    emplace_back a v = (.ok (), construct { a with size_ := a.size_ + 1 }
      (((a.pos_ + a.size_) % a.capacity_) * a.T.sizeof) v) := by
  simp [emplace_back, Nat.not_le.2 hlt]

theorem emplace_back_fast (a : array) (v : Elem) (hw : wf a)
    (hp : sizeof_value_type_is_power_of a.T = true) (hlt : a.size_ < a.capacity_)
    (hv : v.length = a.T.sizeof) :
    (emplace_back a v).1 = .ok () ∧ (emplace_back a v).2.pos_ = a.pos_ ∧
    (emplace_back a v).2.size_ = a.size_ + 1 ∧ (emplace_back a v).2.T = a.T ∧
    (emplace_back a v).2.capacity_ = a.capacity_ ∧ wf (emplace_back a v).2 ∧
    contents (emplace_back a v).2 = contents a ++ [v] := by
  obtain ⟨hs, hc, hsz, hcap, hb⟩ := hw
  rw [if_pos hp] at hb
  rw [emplace_back_ok a v hlt]
  refine ⟨rfl, rfl, rfl, rfl, rfl, ?_, ?_⟩
  · refine ⟨hs, hc, Nat.succ_le_of_lt hlt, ?_, ?_⟩
    · simpa [construct, Block.store_bytes] using hcap
    · simp only [construct, Block.store_bytes]; rw [if_pos hp]; exact hb
  · simp only [contents, construct, List.range_succ, List.map_append, List.map_cons,
      List.map_nil]
    congr 1
    · apply List.map_congr_left
      intro i hi
      have hi := List.mem_range.1 hi
      simp only [deref, index, begin, hp, if_true]
      apply Block.load_store_of_disjoint
      intro j hj k hk
      rw [hv] at hj
      rw [← hb, ← Nat.add_mul, slot_mod _ _ _ _ hc hj, slot_mod _ _ _ _ hc hk]
      intro he
      have h3 := slot_inj _ _ _ _ _ hj hk he
      rw [Nat.mod_mod, Nat.mod_add_mod] at h3
      · have : a.size_ = i + (a.size_ - i) := by omega
        rw [this, ← Nat.add_assoc] at h3
        exact Block.mod_add_ne _ _ _ (by omega) (by omega) h3
    · congr 1
      simp only [deref, index, begin, hp, if_true]
      have h4 := Block.load_store_same a.data_
        ((a.pos_ + a.size_) % a.capacity_ * a.T.sizeof)
        (a.pos_ % a.capacity_ * a.T.sizeof + a.size_ * a.T.sizeof) v
        (by rw [hv, ← hb]; exact Nat.le_mul_of_pos_left _ hc)
        (by rw [← hb, ← Nat.add_mul, Nat.mul_mod_mul_right, Nat.mul_mod_mul_right,
              Nat.mod_mod, Nat.mod_add_mod])
      rw [hv] at h4
      exact h4


theorem mulmod_eq (a b m : Nat) : detail.mulmod a b m = (a * b) % m := by
  simp [detail.mulmod, Nat.mul_mod]

theorem erase_trivial (a : array) (n : Nat) (ht : a.T.is_trivially_destructible = true) :
    erase a n = (.ok (), { a with size_ := a.size_ - min a.size_ n,
                                  pos_ := a.pos_ + min a.size_ n }) := by
  simp [erase, ht]

theorem index_shift (a : array) (hw : wf a) (m i sz : Nat) :
    deref { a with size_ := sz, pos_ := a.pos_ + m } (index { a with size_ := sz, pos_ := a.pos_ + m } i)
      = deref a (index a (i + m)) := by
  obtain ⟨hs, hc, hsz, hcap, hb⟩ := hw
  simp only [deref, index, begin]
  apply Block.load_congr
  by_cases hp : sizeof_value_type_is_power_of a.T = true
  · rw [if_pos hp] at hb
    simp only [hp, if_true]
    rw [← hb, ← Nat.add_mul, ← Nat.add_mul, Nat.mul_mod_mul_right, Nat.mul_mod_mul_right,
      Nat.mod_add_mod, Nat.mod_add_mod]
    congr 2
    omega
  · rw [if_neg hp] at hb
    simp only [hp]
    rw [if_neg (by simp), if_neg (by simp), mulmod_eq, mulmod_eq, hb, Nat.mod_add_mod,
      Nat.mod_add_mod]
    congr 1
    ring

theorem erase_contents (a : array) (n : Nat) (hw : wf a)
    (ht : a.T.is_trivially_destructible = true) :
    contents (erase a n).2 = (contents a).drop n := by
  rw [erase_trivial a n ht]
  simp only [contents]
  rw [← List.map_drop]
  have h1 : List.drop n (List.range a.size_)
      = (List.range (a.size_ - min a.size_ n)).map (fun i => i + min a.size_ n) := by
    apply List.ext_getElem
    · simp; omega
    · intro i h1 h2
      simp at h1 h2 ⊢
      omega
  rw [h1, List.map_map]
  apply List.map_congr_left
  intro i _
  exact index_shift a hw _ i _

theorem erase_wf (a : array) (n : Nat) (hw : wf a)
    (ht : a.T.is_trivially_destructible = true) : wf (erase a n).2 := by
  rw [erase_trivial a n ht]
  obtain ⟨hs, hc, hsz, hcap, hb⟩ := hw
  exact ⟨hs, hc, by simp only; omega, hcap, hb⟩


theorem emplace_back_full (a : array) (v : Elem) (h : a.capacity_ ≤ a.size_) :
    emplace_back a v = (.thrown .length_error, a) := by
  simp [emplace_back, h]

theorem append_cons_ok (a : array) (v : Elem) (rest : List Elem) (hlt : a.size_ < a.capacity_) :
    append a (v :: rest) = append (emplace_back a v).2 rest := by
  rw [append, emplace_back_ok a v hlt]

theorem append_cons_full (a : array) (v : Elem) (rest : List Elem) (h : a.capacity_ ≤ a.size_) :
    append a (v :: rest) = (.thrown .length_error, a) := by
  rw [append, emplace_back_full a v h]

theorem resize_loop_ok (k : Nat) : ∀ (fuel : Nat) (a : array) (count : Nat) (v : Elem),
    k ≤ fuel → a.size_ + k = count → count ≤ a.capacity_ →
    (resize_loop fuel a count v).1 = .ok () ∧ (resize_loop fuel a count v).2.size_ = count ∧
    (resize_loop fuel a count v).2.T = a.T ∧
    (resize_loop fuel a count v).2.capacity_ = a.capacity_ ∧
    (resize_loop fuel a count v).2.pos_ = a.pos_ := by
  induction k with
  | zero =>
    intro fuel a count v _ h _
    cases fuel <;> simp [resize_loop, show a.size_ = count by omega]
  | succ k ih =>
    intro fuel a count v hf h hc
    cases fuel with
    | zero => omega
    | succ fuel =>
      have hlt : a.size_ < a.capacity_ := by omega
      rw [resize_loop, if_neg (by omega), emplace_back_ok a v hlt]
      simp only
      have := ih fuel (construct { a with size_ := a.size_ + 1 }
        (((a.pos_ + a.size_) % a.capacity_) * a.T.sizeof) v) count v (by omega)
        (by simp only [construct]; omega) hc
      simpa [construct] using this

theorem resize_loop_fast (k : Nat) : ∀ (fuel : Nat) (a : array) (count : Nat) (v : Elem),
    k ≤ fuel → a.size_ + k = count → count ≤ a.capacity_ → wf a →
    sizeof_value_type_is_power_of a.T = true → v.length = a.T.sizeof →
    wf (resize_loop fuel a count v).2 ∧
    contents (resize_loop fuel a count v).2 = contents a ++ List.replicate k v := by
  induction k with
  | zero =>
    intro fuel a count v _ h _ hw _ _
    cases fuel <;> simp [resize_loop, show a.size_ = count by omega, hw]
  | succ k ih =>
    intro fuel a count v hf h hc hw hp hv
    cases fuel with
    | zero => omega
    | succ fuel =>
      have hlt : a.size_ < a.capacity_ := by omega
      obtain ⟨h1, h2, h3, h4, h5, h6, h7⟩ := emplace_back_fast a v hw hp hlt hv
      have e : resize_loop (fuel + 1) a count v = resize_loop fuel (emplace_back a v).2 count v := by
        rw [resize_loop, if_neg (by omega), emplace_back_ok a v hlt]
      rw [e]
      obtain ⟨i1, i2⟩ := ih fuel (emplace_back a v).2 count v (by omega) (by rw [h3]; omega)
        (by rw [h5]; exact hc) h6 (by rw [h4]; exact hp) (by rw [h4]; exact hv)
      refine ⟨i1, ?_⟩
      rw [i2, h7, List.replicate_succ]
      simp

theorem destruct_loop_spec (k : Nat) : ∀ (fuel : Nat) (a : array) (b : Nat),
    k ≤ fuel → 0 < a.T.sizeof →
    destruct_loop fuel a (b + k * a.T.sizeof) b =
      (.ok (), { a with
        destructed := a.destructed ++ (List.range k).reverse.map (fun j => b + j * a.T.sizeof),
        size_ := a.size_ - k }) := by
  induction k with
  | zero =>
    intro fuel a b _ _
    cases fuel <;> simp [destruct_loop]
  | succ k ih =>
    intro fuel a b hf hs
    cases fuel with
    | zero => omega
    | succ fuel =>
      have h1 : b + (k + 1) * a.T.sizeof ≠ b := by
        have : 0 < (k + 1) * a.T.sizeof := Nat.mul_pos (by omega) hs
        omega
      have h2 : ¬ b + (k + 1) * a.T.sizeof < a.T.sizeof := by
        rw [Nat.add_mul]; omega
      have h3 : b + (k + 1) * a.T.sizeof - a.T.sizeof = b + k * a.T.sizeof := by
        rw [Nat.add_mul]; omega
      rw [destruct_loop, if_neg h1, if_neg h2]
      simp only [h3]
      have h4 := ih fuel { a with destructed := a.destructed ++ [b + k * a.T.sizeof],
                                  size_ := a.size_ - 1 } b (by omega) hs
      simp only at h4
      rw [h4]
      simp [List.range_succ, Nat.sub_sub, Nat.add_comm 1 k]


theorem roundup_ge (x p : Nat) (hp : 0 < p) : x ≤ detail.roundup x p := by
  unfold detail.roundup
  have h1 := Nat.div_add_mod (x + p - 1) p
  have h2 := Nat.mod_lt (x + p - 1) hp
  omega

theorem roundup_of_dvd (x p : Nat) (hp : 0 < p) (h : p ∣ x) : detail.roundup x p = x := by
  obtain ⟨q, rfl⟩ := h
  unfold detail.roundup
  have : (p * q + p - 1) / p = q := by
    rw [Nat.add_sub_assoc hp, Nat.mul_add_div hp, Nat.div_eq_of_lt (by omega), Nat.add_zero]
  rw [this]

theorem roundup_dvd (x p : Nat) : p ∣ detail.roundup x p := Dvd.intro _ rfl

theorem sizeof_pos_of_power (T : value_type) (hp : sizeof_value_type_is_power_of T = true) :
    0 < T.sizeof := by
  rcases Nat.eq_zero_or_pos T.sizeof with h | h
  · simp [sizeof_value_type_is_power_of, h] at hp
  · exact h

theorem sizeof_dvd_buffer (T : value_type) (k n : Nat)
    (hp : sizeof_value_type_is_power_of T = true) :
    T.sizeof ∣ detail.roundup (n * T.sizeof) (2 ^ k) := by
  have h1 : T.sizeof ∣ 2 ^ 63 := by
    simp only [sizeof_value_type_is_power_of, beq_iff_eq] at hp
    exact Nat.dvd_of_mod_eq_zero hp
  obtain ⟨j, _, hj⟩ := (Nat.dvd_prime_pow Nat.prime_two).1 h1
  rcases Nat.le_total j k with h | h
  · exact Dvd.dvd.trans (by rw [hj]; exact pow_dvd_pow 2 h) (roundup_dvd _ _)
  · have h2 : 2 ^ k ∣ n * T.sizeof := Dvd.dvd.mul_left (by rw [hj]; exact pow_dvd_pow 2 h) n
    rw [roundup_of_dvd _ _ (by positivity) h2]
    exact Dvd.intro_left _ rfl

theorem create_wf (T : value_type) (k n : Nat) (hs : 0 < T.sizeof) (hn : 0 < n) :
    wf (create T (2 ^ k) n) := by
  have hB : n * T.sizeof ≤ detail.roundup (n * T.sizeof) (2 ^ k) :=
    roundup_ge _ _ (by positivity)
  have hcap : 0 < detail.roundup (n * T.sizeof) (2 ^ k) / T.sizeof := by
    apply Nat.div_pos _ hs
    calc T.sizeof ≤ n * T.sizeof := Nat.le_mul_of_pos_left _ hn
      _ ≤ _ := hB
  refine ⟨hs, hcap, Nat.zero_le _, rfl, ?_⟩
  by_cases hp : sizeof_value_type_is_power_of T = true
  · simp only [create, of_allocation, allocator.allocate_at_least, allocator.array_size,
      default_allocator_backend.allocate, hp, if_true]
    exact Nat.div_mul_cancel (sizeof_dvd_buffer T k n hp)
  · simp only [create, of_allocation, allocator.allocate_at_least, allocator.array_size,
      default_allocator_backend.allocate, hp]
    simp


theorem push_back_eq (a : array) (v : Elem) : push_back a v = emplace_back a v := rfl

theorem append_ilist_eq (r : List Elem) : ∀ a : array, append_ilist a r = append a r := by
  induction r with
  | nil => intro a; rfl
  | cons v rest ih =>
    intro a
    rw [append_ilist, append, push_back_eq]
    rcases h : emplace_back a v with ⟨o, a1⟩
    cases o <;> simp [ih]

theorem contents_length (a : array) : (contents a).length = a.size_ := by
  simp [contents]

theorem contents_get (a : array) (i : Nat) (h : i < a.size_) :
    (contents a)[i]? = some (a.deref (a.index i)) := by
  simp [contents, List.getElem?_range h]

theorem erase_nontrivial (a : array) (n : Nat) (ht : a.T.is_trivially_destructible = false)
    (hs : 0 < a.T.sizeof) (hn : n ≤ a.size_) :
    erase a n = (.ok (), { a with
      destructed := a.destructed ++
        (List.range (a.size_ - n)).reverse.map (fun j => a.begin + n * a.T.sizeof + j * a.T.sizeof),
      size_ := a.size_ - (a.size_ - n) }) := by
  have h1 : a.end_ = a.begin + n * a.T.sizeof + (a.size_ - n) * a.T.sizeof := by
    rw [end_, Nat.add_assoc, ← Nat.add_mul]
    congr 2
    omega
  have h2 : a.size_ - n ≤ a.end_ - (a.begin + n * a.T.sizeof) := by
    rw [h1, Nat.add_sub_cancel_left]
    exact Nat.le_mul_of_pos_right _ hs
  simp only [erase, ht, Bool.not_false, if_true, destruct]
  rw [h1] at h2 ⊢
  exact destruct_loop_spec (a.size_ - n) _ a (a.begin + n * a.T.sizeof) h2 hs

theorem shrink_destruct (a : array) (n : Nat) (hs : 0 < a.T.sizeof) (hn : n ≤ a.size_) :
    destruct a a.end_ (a.end_ - (a.size_ - n) * a.T.sizeof) = (.ok (), { a with
      destructed := a.destructed ++
        (List.range (a.size_ - n)).reverse.map (fun j => a.begin + n * a.T.sizeof + j * a.T.sizeof),
      size_ := a.size_ - (a.size_ - n) }) := by
  have h1 : a.end_ = a.begin + n * a.T.sizeof + (a.size_ - n) * a.T.sizeof := by
    rw [end_, Nat.add_assoc, ← Nat.add_mul]
    congr 2
    omega
  have h3 : a.end_ - (a.size_ - n) * a.T.sizeof = a.begin + n * a.T.sizeof := by
    rw [h1, Nat.add_sub_cancel]
  have h2 : a.size_ - n ≤ a.end_ - (a.begin + n * a.T.sizeof) := by
    rw [h1, Nat.add_sub_cancel_left]
    exact Nat.le_mul_of_pos_right _ hs
  rw [h3]
  simp only [destruct]
  rw [h1] at h2 ⊢
  exact destruct_loop_spec (a.size_ - n) _ a (a.begin + n * a.T.sizeof) h2 hs

theorem clear_ok (a : array) (hs : 0 < a.T.sizeof) :
    (clear a).1 = .ok () ∧ (clear a).2.size_ = 0 ∧ (clear a).2.pos_ = 0 ∧
    (clear a).2.capacity_ = a.capacity_ := by
  by_cases ht : a.T.is_trivially_destructible = true
  · simp [clear, ht]
  · have ht : a.T.is_trivially_destructible = false := by simpa using ht
    have h := shrink_destruct a 0 hs (Nat.zero_le _)
    simp only [Nat.zero_mul, Nat.add_zero, Nat.sub_zero] at h
    have h3 : a.end_ - a.size_ * a.T.sizeof = a.begin := by simp [end_]
    rw [h3] at h
    simp [clear, ht, h]

/-- A state that differs only in `size_` and the ghost logs resolves indices alike. -/
theorem deref_index_resize (a : array) (sz : Nat) (l : List Nat) (i : Nat) :
    deref { a with destructed := l, size_ := sz } (index { a with destructed := l, size_ := sz } i)
      = deref a (index a i) := rfl

theorem resize_fill_ok (a : array) (n : Nat) (fill : Elem) (hs : 0 < a.T.sizeof)
    (hn : n ≤ a.capacity_) :
    (resize_fill a n fill).1 = .ok () ∧ (resize_fill a n fill).2.size_ = n := by
  have hc : ¬ n > a.capacity_ := Nat.not_lt.2 hn
  by_cases h0 : n = 0
  · obtain ⟨c1, c2, _, _⟩ := clear_ok a hs
    simp only [resize_fill, if_neg hc, if_pos h0]
    exact ⟨c1, by rw [c2, h0]⟩
  by_cases h1 : n = a.size_
  · simp only [resize_fill, if_neg hc, if_neg h0, if_pos h1]
    exact ⟨trivial, h1.symm⟩
  by_cases h2 : n > a.size_
  · simp only [resize_fill, if_neg hc, if_neg h0, if_neg h1, if_pos h2]
    obtain ⟨r1, r2, _⟩ := resize_loop_ok (n - a.size_) (n - a.size_) a n fill (Nat.le_refl _)
      (by omega) hn
    exact ⟨r1, r2⟩
  by_cases ht : a.T.is_trivially_destructible = true
  · simp [resize_fill, hc, h0, h1, h2, ht]
  · simp only [resize_fill, if_neg hc, if_neg h0, if_neg h1, if_neg h2, ht]
    rw [if_neg (by simp), shrink_destruct a n hs (by omega)]
    exact ⟨rfl, by simp only; omega⟩

theorem resize_fill_shrink (a : array) (n : Nat) (fill : Elem) (hs : 0 < a.T.sizeof)
    (hn : n < a.size_) (hc : n ≤ a.capacity_) (i : Nat) (hi : i < n) :
    (resize_fill a n fill).2.deref ((resize_fill a n fill).2.index i) = a.deref (a.index i) := by
  have hc : ¬ n > a.capacity_ := Nat.not_lt.2 hc
  have h0 : n ≠ 0 := by omega
  have h1 : n ≠ a.size_ := by omega
  have h2 : ¬ n > a.size_ := by omega
  by_cases ht : a.T.is_trivially_destructible = true
  · simp only [resize_fill, if_neg hc, if_neg h0, if_neg h1, if_neg h2, ht, if_true]
    rfl
  · simp only [resize_fill, if_neg hc, if_neg h0, if_neg h1, if_neg h2, ht]
    rw [if_neg (by simp), shrink_destruct a n hs (by omega)]
    rfl

theorem resize_ok (a : array) (n : Nat) (hs : 0 < a.T.sizeof) (hn : n ≤ a.capacity_) :
    (resize a n).1 = .ok () ∧ (resize a n).2.size_ = n := by
  have hc : ¬ n > a.capacity_ := Nat.not_lt.2 hn
  by_cases h0 : n = 0
  · obtain ⟨c1, c2, _, _⟩ := clear_ok a hs
    simp only [resize, if_neg hc, if_pos h0]
    exact ⟨c1, by rw [c2, h0]⟩
  by_cases h1 : n = a.size_
  · simp only [resize, if_neg hc, if_neg h0, if_pos h1]
    exact ⟨trivial, h1.symm⟩
  by_cases h2 : n > a.size_
  · simp only [resize, if_neg hc, if_neg h0, if_neg h1, if_pos h2]
    split
    · exact ⟨rfl, rfl⟩
    · exact resize_fill_ok a n a.T.init hs hn
  by_cases ht : a.T.is_trivially_destructible = true
  · simp [resize, hc, h0, h1, h2, ht]
  · simp only [resize, if_neg hc, if_neg h0, if_neg h1, if_neg h2, ht]
    rw [if_neg (by simp), shrink_destruct a n hs (by omega)]
    exact ⟨rfl, by simp only; omega⟩

theorem resize_shrink (a : array) (n : Nat) (hs : 0 < a.T.sizeof)
    (hn : n < a.size_) (hc : n ≤ a.capacity_) (i : Nat) (hi : i < n) :
    (resize a n).2.deref ((resize a n).2.index i) = a.deref (a.index i) := by
  have hc : ¬ n > a.capacity_ := Nat.not_lt.2 hc
  have h0 : n ≠ 0 := by omega
  have h1 : n ≠ a.size_ := by omega
  have h2 : ¬ n > a.size_ := by omega
  by_cases ht : a.T.is_trivially_destructible = true
  · simp only [resize, if_neg hc, if_neg h0, if_neg h1, if_neg h2, ht, if_true]
    rfl
  · simp only [resize, if_neg hc, if_neg h0, if_neg h1, if_neg h2, ht]
    rw [if_neg (by simp), shrink_destruct a n hs (by omega)]
    rfl

theorem resize_fill_grow (a : array) (n : Nat) (fill : Elem) (hw : wf a)
    (hp : sizeof_value_type_is_power_of a.T = true) (hf : fill.length = a.T.sizeof)
    (h1 : a.size_ < n) (h2 : n ≤ a.capacity_) :
    (resize_fill a n fill).1 = .ok () ∧ (resize_fill a n fill).2.size_ = n ∧
    (resize_fill a n fill).2.T = a.T ∧ (resize_fill a n fill).2.capacity_ = a.capacity_ ∧
    (resize_fill a n fill).2.pos_ = a.pos_ ∧ wf (resize_fill a n fill).2 ∧
    contents (resize_fill a n fill).2 = contents a ++ List.replicate (n - a.size_) fill := by
  have e : resize_fill a n fill = resize_loop (n - a.size_) a n fill := by
    simp only [resize_fill, if_neg (Nat.not_lt.2 h2), if_neg (show n ≠ 0 by omega),
      if_neg (show n ≠ a.size_ by omega), if_pos (show n > a.size_ from h1)]
  rw [e]
  obtain ⟨r1, r2, r3, r4, r5⟩ := resize_loop_ok (n - a.size_) (n - a.size_) a n fill
    (Nat.le_refl _) (by omega) h2
  obtain ⟨r6, r7⟩ := resize_loop_fast (n - a.size_) (n - a.size_) a n fill
    (Nat.le_refl _) (by omega) h2 hw hp hf
  exact ⟨r1, r2, r3, r4, r5, r6, r7⟩

theorem deref_of_contents (a : array) (l : List Elem) (h : contents a = l) (i : Nat) (v : Elem)
    (hv : l[i]? = some v) : a.deref (a.index i) = v := by
  have hi : i < a.size_ := by
    rw [← contents_length a, h]
    exact (List.getElem?_eq_some_iff.1 hv).1
  have := contents_get a i hi
  rw [h, hv] at this
  exact (Option.some.inj this).symm


theorem contents_shrink (a : array) (sz : Nat) (l : List Nat) (h : sz ≤ a.size_) :
    contents { a with destructed := l, size_ := sz } = (contents a).take sz := by
  simp only [contents]
  rw [← List.map_take, List.take_range, Nat.min_eq_left h]
  rfl

theorem wf_shrink (a : array) (sz : Nat) (l : List Nat) (hw : wf a) (h : sz ≤ a.size_) :
    wf { a with destructed := l, size_ := sz } := by
  obtain ⟨hs, hc, hsz, hcap, hb⟩ := hw
  exact ⟨hs, hc, Nat.le_trans h hsz, hcap, hb⟩

theorem and_then_ok (r : Outcome Unit × array) (f : array → Option array)
    (h : r.1 = .ok ()) : and_then r f = f r.2 := by
  rcases r with ⟨o, a⟩
  simp only at h
  subst h
  rfl

theorem refill_some (T : value_type) (k m : Nat) (A B : Elem)
    (h1 : ((create T (2 ^ k) m).resize_fill (create T (2 ^ k) m).capacity_ A).1 = .ok ())
    (h2 : (erase ((create T (2 ^ k) m).resize_fill (create T (2 ^ k) m).capacity_ A).2 100).1
      = .ok ())
    (h3 : (resize_fill
      (erase ((create T (2 ^ k) m).resize_fill (create T (2 ^ k) m).capacity_ A).2 100).2
      (erase ((create T (2 ^ k) m).resize_fill (create T (2 ^ k) m).capacity_ A).2 100).2.capacity_
      B).1 = .ok ()) :
    refill T k m A B = some (refill_state T k m A B) := by
  unfold refill
  rw [and_then_ok _ _ h1, and_then_ok _ _ h2, and_then_ok _ _ h3]
  rfl

/-- What the refill scenario leaves when `T` is trivially destructible. -/
theorem refill_trivial (T : value_type) (k m : Nat) (A B : Elem)
    (ht : T.is_trivially_destructible = true)
    (hp : sizeof_value_type_is_power_of T = true) (hm : 0 < m)
    (hA : A.length = T.sizeof) (hB : B.length = T.sizeof) :
    refill T k m A B = some (refill_state T k m A B) ∧
    (refill_state T k m A B).size_ = (create T (2 ^ k) m).capacity_ ∧
    (refill_state T k m A B).capacity_ = (create T (2 ^ k) m).capacity_ ∧
    contents (refill_state T k m A B) =
      List.replicate ((create T (2 ^ k) m).capacity_ - 100) A ++
      List.replicate (min 100 (create T (2 ^ k) m).capacity_) B := by
  have hw0 := create_wf T k m (sizeof_pos_of_power T hp) hm
  have hc0 : 0 < (create T (2 ^ k) m).capacity_ := hw0.2.1
  obtain ⟨g1, g2, g3, g4, _, g6, g7⟩ := resize_fill_grow (create T (2 ^ k) m)
    (create T (2 ^ k) m).capacity_ A hw0 hp hA hc0 (Nat.le_refl _)
  have hc1 : contents (create T (2 ^ k) m) = [] := rfl
  have hz : (create T (2 ^ k) m).size_ = 0 := rfl
  rw [hc1, List.nil_append, hz, Nat.sub_zero] at g7
  have ht1 : ((create T (2 ^ k) m).resize_fill (create T (2 ^ k) m).capacity_ A).2.T.is_trivially_destructible
      = true := by rw [g3]; exact ht
  have e2 := erase_contents _ 100 g6 ht1
  have w2 := erase_wf _ 100 g6 ht1
  have s2 : (erase ((create T (2 ^ k) m).resize_fill (create T (2 ^ k) m).capacity_ A).2 100).2.size_
      = (create T (2 ^ k) m).capacity_ - min 100 (create T (2 ^ k) m).capacity_ := by
    rw [erase_trivial _ 100 ht1]
    simp only
    rw [g2, Nat.min_comm]
  have c2 : (erase ((create T (2 ^ k) m).resize_fill (create T (2 ^ k) m).capacity_ A).2 100).2.capacity_
      = (create T (2 ^ k) m).capacity_ := by
    rw [erase_trivial _ 100 ht1]
    exact g4
  have t2 : (erase ((create T (2 ^ k) m).resize_fill (create T (2 ^ k) m).capacity_ A).2 100).2.T
      = T := by
    rw [erase_trivial _ 100 ht1]
    exact g3
  rw [g7] at e2
  have o2 : (erase ((create T (2 ^ k) m).resize_fill (create T (2 ^ k) m).capacity_ A).2 100).1
      = .ok () := by rw [erase_trivial _ 100 ht1]
  obtain ⟨f1, f2, _, f4, _, _, f7⟩ := resize_fill_grow
    (erase ((create T (2 ^ k) m).resize_fill (create T (2 ^ k) m).capacity_ A).2 100).2
    (erase ((create T (2 ^ k) m).resize_fill (create T (2 ^ k) m).capacity_ A).2 100).2.capacity_
    B w2 (by rw [t2]; exact hp) (by rw [t2]; exact hB) (by rw [s2, c2]; omega) (Nat.le_refl _)
  refine ⟨refill_some T k m A B g1 o2 f1, by simp only [refill_state]; rw [f2, c2],
    by simp only [refill_state]; rw [f4, c2], ?_⟩
  simp only [refill_state]
  rw [f7, e2, s2, c2]
  simp only [List.drop_replicate]
  congr 2
  omega

theorem grow_after_shrink (a : array) (l : List Nat) (sz n : Nat) (B : Elem) (hw : wf a)
    (hp : sizeof_value_type_is_power_of a.T = true) (hB : B.length = a.T.sizeof)
    (hsz : sz ≤ a.size_) (h1 : sz < n) (h2 : n ≤ a.capacity_) :
    contents (resize_fill { a with destructed := l, size_ := sz } n B).2 =
      (contents a).take sz ++ List.replicate (n - sz) B := by
  obtain ⟨_, _, _, _, _, _, f7⟩ := resize_fill_grow { a with destructed := l, size_ := sz } n B
    (wf_shrink a sz l hw hsz) hp hB h1 h2
  rw [f7, contents_shrink a sz l hsz]

/-- What the refill scenario leaves when `T` is not trivially destructible. -/
theorem refill_nontrivial (T : value_type) (k m : Nat) (A B : Elem)
    (ht : T.is_trivially_destructible = false)
    (hp : sizeof_value_type_is_power_of T = true) (hm : 0 < m)
    (hA : A.length = T.sizeof) (hB : B.length = T.sizeof)
    (h100 : 100 < (create T (2 ^ k) m).capacity_) :
    refill T k m A B = some (refill_state T k m A B) ∧
    (refill_state T k m A B).capacity_ = (create T (2 ^ k) m).capacity_ ∧
    contents (refill_state T k m A B) =
      List.replicate 100 A ++ List.replicate ((create T (2 ^ k) m).capacity_ - 100) B := by
  have hs := sizeof_pos_of_power T hp
  have hw0 := create_wf T k m hs hm
  have hc0 : 0 < (create T (2 ^ k) m).capacity_ := hw0.2.1
  obtain ⟨g1, g2, g3, g4, _, g6, g7⟩ := resize_fill_grow (create T (2 ^ k) m)
    (create T (2 ^ k) m).capacity_ A hw0 hp hA hc0 (Nat.le_refl _)
  have hc1 : contents (create T (2 ^ k) m) = [] := rfl
  have hz : (create T (2 ^ k) m).size_ = 0 := rfl
  rw [hc1, List.nil_append, hz, Nat.sub_zero] at g7
  have e := erase_nontrivial ((create T (2 ^ k) m).resize_fill (create T (2 ^ k) m).capacity_ A).2
    100 (by rw [g3]; exact ht) (by rw [g3]; exact hs) (by rw [g2]; omega)
  have hsz : ((create T (2 ^ k) m).resize_fill (create T (2 ^ k) m).capacity_ A).2.size_ -
      (((create T (2 ^ k) m).resize_fill (create T (2 ^ k) m).capacity_ A).2.size_ - 100) = 100 := by
    rw [g2]; omega
  rw [hsz] at e
  have hle : 100 ≤ ((create T (2 ^ k) m).resize_fill (create T (2 ^ k) m).capacity_ A).2.size_ := by
    rw [g2]; omega
  obtain ⟨f1, _, _, f4, _, _, _⟩ := resize_fill_grow
    (erase ((create T (2 ^ k) m).resize_fill (create T (2 ^ k) m).capacity_ A).2 100).2
    (erase ((create T (2 ^ k) m).resize_fill (create T (2 ^ k) m).capacity_ A).2 100).2.capacity_
    B (by rw [e]; exact wf_shrink _ 100 _ g6 hle) (by rw [e]; simp only; rw [g3]; exact hp)
    (by rw [e]; simp only; rw [g3]; exact hB) (by rw [e]; simp only; rw [g4]; exact h100)
    (Nat.le_refl _)
  refine ⟨refill_some T k m A B g1 (by rw [e]) f1, ?_, ?_⟩
  · simp only [refill_state]
    rw [f4, e]
    exact g4
  simp only [refill_state]
  rw [e]
  simp only
  rw [grow_after_shrink _ _ 100 _ B g6 (by rw [g3]; exact hp) (by rw [g3]; exact hB) hle
    (by rw [g4]; exact h100) (Nat.le_refl _), g7, g4, List.take_replicate,
    Nat.min_eq_left (by omega)]


theorem destruct_loop_steps (g : Nat) : ∀ (a : array) (rs rf : Nat), 0 < a.T.sizeof →
    (destruct_loop g a rs rf).1 = .ok () → ∃ k, k ≤ g ∧ rs = rf + k * a.T.sizeof := by
  induction g with
  | zero =>
    intro a rs rf _ h
    by_cases e : rs = rf
    · exact ⟨0, Nat.le_refl _, by simp [e]⟩
    · simp [destruct_loop, e] at h
  | succ g ih =>
    intro a rs rf hs h
    by_cases e : rs = rf
    · exact ⟨0, Nat.zero_le _, by simp [e]⟩
    · by_cases l : rs < a.T.sizeof
      · simp [destruct_loop, e, l] at h
      · rw [destruct_loop, if_neg e, if_neg l] at h
        simp only at h
        obtain ⟨k, hk, hk2⟩ := ih _ (rs - a.T.sizeof) rf (by exact hs) h
        simp only at hk2
        exact ⟨k + 1, by omega, by rw [Nat.add_mul]; omega⟩

/-- The bound on the iterations in `destruct` loses nothing: whenever the loop stops
after some number of iterations, `destruct` returns that very result. -/
theorem destruct_fuel_adequate (g : Nat) (a : array) (rs rf : Nat) (hs : 0 < a.T.sizeof)
    (h : (destruct_loop g a rs rf).1 = .ok ()) : destruct a rs rf = destruct_loop g a rs rf := by
  obtain ⟨k, hk, hk2⟩ := destruct_loop_steps g a rs rf hs h
  have hk3 : k ≤ rs - rf := by
    rw [hk2, Nat.add_sub_cancel_left]
    exact Nat.le_mul_of_pos_right _ hs
  rw [destruct, hk2, destruct_loop_spec k g a rf hk hs]
  rw [hk2] at hk3
  rw [destruct_loop_spec k _ a rf hk3 hs]


theorem wf_of_shape (a b : array) (hw : wf a) (hT : b.T = a.T)
    (hc : b.capacity_ = a.capacity_) (hb : b.buffer_size_ = a.buffer_size_)
    (hd : b.data_.bytes = a.data_.bytes) (hs : b.size_ ≤ b.capacity_) : wf b := by
  obtain ⟨h1, h2, _, h4, h5⟩ := hw
  unfold wf
  rw [hT, hc, hb, hd]
  exact ⟨h1, h2, by rw [← hc]; exact hs, h4, h5⟩

theorem wf_emplace_back (a : array) (v : Elem) (hw : wf a) : wf (emplace_back a v).2 := by
  by_cases hlt : a.size_ < a.capacity_
  · rw [emplace_back_ok a v hlt]
    exact wf_of_shape a _ hw rfl rfl rfl (by simp [construct, Block.store_bytes])
      (Nat.succ_le_of_lt hlt)
  · rw [emplace_back_full a v (Nat.le_of_not_lt hlt)]
    exact hw

theorem wf_append (r : List Elem) : ∀ a : array, wf a → wf (append a r).2 := by
  induction r with
  | nil => intro a hw; exact hw
  | cons v rest ih =>
    intro a hw
    by_cases hlt : a.size_ < a.capacity_
    · rw [append_cons_ok a v rest hlt]
      exact ih _ (wf_emplace_back a v hw)
    · rw [append_cons_full a v rest (Nat.le_of_not_lt hlt)]
      exact hw

theorem wf_resize_loop (g : Nat) : ∀ (a : array) (count : Nat) (v : Elem), wf a →
    wf (resize_loop g a count v).2 := by
  induction g with
  | zero =>
    intro a count v hw
    rw [resize_loop]
    split <;> exact hw
  | succ g ih =>
    intro a count v hw
    rw [resize_loop]
    split
    · exact hw
    · by_cases hlt : a.size_ < a.capacity_
      · have h := wf_emplace_back a v hw
        rw [emplace_back_ok a v hlt] at h ⊢
        exact ih _ count v h
      · rw [emplace_back_full a v (Nat.le_of_not_lt hlt)]
        exact hw

theorem wf_destruct_loop (g : Nat) : ∀ (a : array) (rs rf : Nat), wf a →
    wf (destruct_loop g a rs rf).2 := by
  induction g with
  | zero =>
    intro a rs rf hw
    rw [destruct_loop]
    split <;> exact hw
  | succ g ih =>
    intro a rs rf hw
    rw [destruct_loop]
    split
    · exact hw
    · split
      · exact hw
      · exact ih _ _ rf (wf_of_shape a _ hw rfl rfl rfl rfl
          (Nat.le_trans (Nat.sub_le _ _) hw.2.2.1))

theorem wf_clear (a : array) (hw : wf a) : wf (clear a).2 := by
  unfold clear
  split
  · have h := wf_destruct_loop (a.end_ - a.begin) a a.end_ a.begin hw
    unfold destruct
    split
    · rename_i u a1 he
      rw [he] at h
      exact wf_of_shape _ _ h rfl rfl rfl rfl (Nat.zero_le _)
    · exact h
  · exact wf_of_shape a _ hw rfl rfl rfl rfl (Nat.zero_le _)

theorem wf_erase (a : array) (n : Nat) (hw : wf a) : wf (erase a n).2 := by
  unfold erase
  split
  · exact wf_destruct_loop _ a _ _ hw
  · exact wf_of_shape a _ hw rfl rfl rfl rfl
      (Nat.le_trans (Nat.sub_le _ _) hw.2.2.1)

theorem wf_resize_fill (a : array) (n : Nat) (v : Elem) (hw : wf a) :
    wf (resize_fill a n v).2 := by
  unfold resize_fill
  split
  · exact hw
  · split
    · exact wf_clear a hw
    · split
      · exact hw
      · split
        · exact wf_resize_loop _ a n v hw
        · split
          · exact wf_of_shape a _ hw rfl rfl rfl rfl (by simp only; omega)
          · exact wf_destruct_loop _ a _ _ hw

theorem wf_resize (a : array) (n : Nat) (hw : wf a) : wf (resize a n).2 := by
  unfold resize
  split
  · exact hw
  · split
    · exact wf_clear a hw
    · split
      · exact hw
      · split
        · split
          · exact wf_of_shape a _ hw rfl rfl rfl rfl (by simp only; omega)
          · exact wf_resize_fill a n _ hw
        · split
          · exact wf_of_shape a _ hw rfl rfl rfl rfl (by simp only; omega)
          · exact wf_destruct_loop _ a _ _ hw

/-- Every public call keeps the state invariant. -/
theorem wf_step (a : array) (c : Call) (hw : wf a) : wf (c.apply a).2 := by
  cases c with
  | emplace_back v => exact wf_emplace_back a v hw
  | push_back v => exact wf_emplace_back a v hw
  | append r => exact wf_append r a hw
  | append_ilist r =>
    show wf (append_ilist a r).2
    rw [append_ilist_eq]
    exact wf_append r a hw
  | resize n => exact wf_resize a n hw
  | resize_fill n v => exact wf_resize_fill a n v hw
  | clear => exact wf_clear a hw
  | erase n => exact wf_erase a n hw

/-- Every reachable array satisfies the state invariant. -/
theorem reachable_wf (a : array) (h : reachable a) : wf a := by
  induction h with
  | fresh T k m hs hm => exact create_wf T k m hs hm
  | step a c _ ih => exact wf_step a c ih

end array
end infinite

namespace infinite
namespace array

theorem roundup_least (x p m : Nat) (hp : 0 < p) (hd : p ∣ m) (hx : x ≤ m) :
    detail.roundup x p ≤ m := by
  obtain ⟨q, rfl⟩ := hd
  unfold detail.roundup
  apply Nat.mul_le_mul_left
  apply Nat.le_of_lt_succ
  rw [Nat.div_lt_iff_lt_mul hp, Nat.succ_mul, Nat.mul_comm q p]
  omega

theorem capacity_ge_request (s p n : Nat) (hs : 0 < s) (hp : 0 < p) :
    n ≤ detail.roundup (n * s) p / s :=
  (Nat.le_div_iff_mul_le hs).2 (roundup_ge _ _ hp)

theorem roundup_capacity (s p n : Nat) (hs : 0 < s) (hp : 0 < p) :
    detail.roundup (detail.roundup (n * s) p / s * s) p = detail.roundup (n * s) p := by
  apply Nat.le_antisymm
  · exact roundup_least _ _ _ hp (roundup_dvd _ _) (Nat.div_mul_le_self _ _)
  · apply roundup_least _ _ _ hp (roundup_dvd _ _)
    calc n * s ≤ detail.roundup (n * s) p / s * s :=
          Nat.mul_le_mul_right _ (capacity_ge_request s p n hs hp)
      _ ≤ _ := roundup_ge _ _ hp


theorem bytes_pos (a : array) (hw : wf a) : 0 < a.data_.bytes := by
  obtain ⟨hs, hc, _, hcap, _⟩ := hw
  rcases Nat.eq_zero_or_pos a.data_.bytes with h | h
  · rw [h, Nat.zero_div] at hcap
    omega
  · exact h

theorem capacity_bytes_le (a : array) (hw : wf a) :
    a.capacity_ * a.T.sizeof ≤ a.data_.bytes := by
  rw [hw.2.2.2.1]
  exact Nat.div_mul_le_self _ _

theorem begin_eq_mod (a : array) (hw : wf a) :
    a.begin = (a.pos_ * a.T.sizeof) % a.data_.bytes := by
  have hb := hw.2.2.2.2
  by_cases hp : sizeof_value_type_is_power_of a.T = true
  · rw [if_pos hp] at hb
    rw [begin_fast a hp, ← hb, Nat.mul_mod_mul_right]
  · rw [if_neg hp] at hb
    simp only [begin, hp]
    rw [if_neg (by simp), mulmod_eq, hb]

theorem index_add_capacity (a : array) (hw : wf a)
    (hp : sizeof_value_type_is_power_of a.T = true) (i : Nat) :
    a.index (i + a.capacity_) = a.index i + a.data_.bytes := by
  have hb := hw.2.2.2.2
  rw [if_pos hp] at hb
  simp only [index]
  rw [Nat.add_mul, hb, Nat.add_assoc]

theorem generate_loop_shape (g : Nat → Elem) (fuel : Nat) : ∀ (a : array) (first l : Nat),
    (generate_loop g fuel a first l).T = a.T ∧
    (generate_loop g fuel a first l).capacity_ = a.capacity_ ∧
    (generate_loop g fuel a first l).buffer_size_ = a.buffer_size_ ∧
    (generate_loop g fuel a first l).pos_ = a.pos_ ∧
    (generate_loop g fuel a first l).size_ = a.size_ ∧
    (generate_loop g fuel a first l).data_.bytes = a.data_.bytes := by
  induction fuel with
  | zero => intro a first l; exact ⟨rfl, rfl, rfl, rfl, rfl, rfl⟩
  | succ fuel ih =>
    intro a first l
    rw [generate_loop]
    split
    · exact ⟨rfl, rfl, rfl, rfl, rfl, rfl⟩
    · obtain ⟨h1, h2, h3, h4, h5, h6⟩ :=
        ih { a with data_ := a.data_.store first (g l) } (first + a.T.sizeof) (l + 1)
      exact ⟨h1, h2, h3, h4, h5, by rw [h6]; exact Block.store_bytes _ _ _⟩

theorem generate_wf (a : array) (g : Nat → Elem) (hw : wf a) : wf (generate a g) := by
  obtain ⟨h1, h2, h3, h4, h5, h6⟩ := generate_loop_shape g a.size_ a a.begin 0
  exact wf_of_shape a _ hw h1 h2 h3 h6 (by
    show (generate_loop g a.size_ a a.begin 0).size_ ≤ (generate_loop g a.size_ a a.begin 0).capacity_
    rw [h5, h2]; exact hw.2.2.1)

theorem generate_loop_untouched (g : Nat → Elem) (fuel : Nat) : ∀ (a : array) (first l k : Nat),
    (∀ t, t < fuel → ∀ j, j < (g (l + t)).length →
      (first + t * a.T.sizeof + j) % a.data_.bytes ≠ k % a.data_.bytes) →
    (generate_loop g fuel a first l).data_.peek k = a.data_.peek k := by
  induction fuel with
  | zero => intro a first l k _; rfl
  | succ fuel ih =>
    intro a first l k h
    rw [generate_loop]
    split
    · rfl
    · rw [ih { a with data_ := a.data_.store first (g l) } (first + a.T.sizeof) (l + 1) k]
      · apply Block.peek_store_of_ne
        intro j hj
        have := h 0 (Nat.succ_pos _) j (by simpa using hj)
        simpa using this
      · intro t ht j hj
        have := h (t + 1) (Nat.succ_lt_succ ht) j (by
          rw [show l + (t + 1) = l + 1 + t by omega]; exact hj)
        simp only [Block.store_bytes]
        rw [show first + a.T.sizeof + t * a.T.sizeof + j = first + (t + 1) * a.T.sizeof + j by
          rw [Nat.add_mul]; omega]
        exact this

theorem generate_loop_written (g : Nat → Elem) (fuel : Nat) : ∀ (a : array) (first l : Nat),
    first + fuel * a.T.sizeof = a.end_ → 0 < a.T.sizeof →
    (∀ t, (g t).length = a.T.sizeof) → fuel * a.T.sizeof ≤ a.data_.bytes →
    ∀ t, t < fuel → ∀ j, j < a.T.sizeof →
      some ((generate_loop g fuel a first l).data_.peek (first + t * a.T.sizeof + j))
        = (g (l + t))[j]? := by
  induction fuel with
  | zero => intro a first l _ _ _ _ t ht; omega
  | succ fuel ih =>
    intro a first l he hs hg hB t ht j hj
    have hne : first ≠ a.end_ := by
      have : 0 < (fuel + 1) * a.T.sizeof := Nat.mul_pos (Nat.succ_pos _) hs
      omega
    have hfs : (fuel + 1) * a.T.sizeof = fuel * a.T.sizeof + a.T.sizeof := Nat.succ_mul _ _
    rw [generate_loop, if_neg hne]
    cases t with
    | zero =>
      rw [generate_loop_untouched]
      · have hj2 : j < (g l).length := by rw [hg]; exact hj
        rw [Nat.zero_mul, Nat.add_zero, Nat.add_zero,
          Block.peek_store_at a.data_ first (g l) j hj2 (by rw [hg]; omega)]
        exact (List.getElem?_eq_getElem hj2).symm
      · intro t' ht' j' hj'
        rw [hg] at hj'
        simp only [Block.store_bytes, Nat.zero_mul, Nat.add_zero]
        have hlt : t' * a.T.sizeof + a.T.sizeof ≤ fuel * a.T.sizeof := by
          rw [← Nat.succ_mul]; exact Nat.mul_le_mul_right _ ht'
        rw [show first + a.T.sizeof + t' * a.T.sizeof + j'
          = first + j + (a.T.sizeof + t' * a.T.sizeof + j' - j) by omega]
        exact Block.mod_add_ne _ _ _ (by omega) (by omega)
    | succ t =>
      have := ih { a with data_ := a.data_.store first (g l) } (first + a.T.sizeof) (l + 1)
        (by show first + a.T.sizeof + fuel * a.T.sizeof = a.end_; omega) hs hg
        (by simp only [Block.store_bytes]; omega) t (Nat.lt_of_succ_lt_succ ht) j hj
      rw [show first + (t + 1) * a.T.sizeof + j = first + a.T.sizeof + t * a.T.sizeof + j by
        rw [Nat.add_mul]; omega, show l + (t + 1) = l + 1 + t by omega]
      exact this


theorem peek_add_bytes (m : Block) (k : Nat) : m.peek (k + m.bytes) = m.peek k := by
  simp [Block.peek]

theorem deref_add_bytes (a : array) (p : Nat) : a.deref (p + a.data_.bytes) = a.deref p := by
  simp only [deref]
  apply Block.load_congr
  simp

/-- The first bytes of the storage after the mirror test's fill on three byte elements,
and the one byte the fill never reaches. -/
theorem char3_mirror_bytes :
    char3_mirror_state.data_.bytes = 4096 ∧
    char3_mirror_state.data_.peek 0 = 1 ∧ char3_mirror_state.data_.peek 1 = 0 ∧
    char3_mirror_state.data_.peek 2 = 0 ∧ char3_mirror_state.data_.peek 4095 = 0 := by
  unfold char3_mirror_state mirror_fill generate
  rw [show (create char3 (2 ^ 12) 1).capacity_ = 1365 by decide]
  have hw : ∀ j, j < 3 → some ((generate_loop (fun l => le24 (l + 1))
      (resize (create char3 (2 ^ 12) 1) 1365).2.size_
      (resize (create char3 (2 ^ 12) 1) 1365).2
      (resize (create char3 (2 ^ 12) 1) 1365).2.begin 0).data_.peek
        ((resize (create char3 (2 ^ 12) 1) 1365).2.begin
          + 0 * (resize (create char3 (2 ^ 12) 1) 1365).2.T.sizeof + j))
      = (le24 (0 + 0 + 1))[j]? := fun j hj =>
    generate_loop_written (fun l => le24 (l + 1)) _
      (resize (create char3 (2 ^ 12) 1) 1365).2 _ 0 (by decide) (by decide)
      (fun t => by simp [le24]; rfl) (by decide) 0 (by decide) j hj
  have e : ∀ j, (resize (create char3 (2 ^ 12) 1) 1365).2.begin
      + 0 * (resize (create char3 (2 ^ 12) 1) 1365).2.T.sizeof + j = j := fun j => by
    have : (resize (create char3 (2 ^ 12) 1) 1365).2.begin = 0 := by decide
    rw [this]; omega
  have h0 := hw 0 (by decide)
  have h1 := hw 1 (by decide)
  have h2 := hw 2 (by decide)
  rw [e] at h0 h1 h2
  refine ⟨(generate_loop_shape _ _ _ _ _).2.2.2.2.2.trans (by decide), ?_, ?_, ?_, ?_⟩
  · exact Option.some.inj (h0.trans (by decide))
  · exact Option.some.inj (h1.trans (by decide))
  · exact Option.some.inj (h2.trans (by decide))
  · rw [generate_loop_untouched]
    · decide
    · intro t ht j hj
      have hl : (le24 (0 + t + 1)).length = 3 := by simp [le24]
      have hsz : (resize (create char3 (2 ^ 12) 1) 1365).2.size_ = 1365 := by decide
      rw [hl] at hj
      rw [hsz] at ht
      show (0 + t * 3 + j) % 4096 ≠ 4095 % 4096
      rw [Nat.mod_eq_of_lt (show 0 + t * 3 + j < 4096 by omega)]
      omega


theorem same_block_refl (a : array) : same_block a a := ⟨rfl, rfl, rfl, rfl⟩

theorem same_block_trans (a b c : array) (h1 : same_block a b) (h2 : same_block b c) :
    same_block a c :=
  ⟨h2.1.trans h1.1, h2.2.1.trans h1.2.1, h2.2.2.1.trans h1.2.2.1, h2.2.2.2.trans h1.2.2.2⟩

theorem same_block_emplace_back (a : array) (v : Elem) : same_block a (emplace_back a v).2 := by
  by_cases hlt : a.size_ < a.capacity_
  · rw [emplace_back_ok a v hlt]
    exact ⟨rfl, rfl, rfl, by simp [construct, Block.store_bytes]⟩
  · rw [emplace_back_full a v (Nat.le_of_not_lt hlt)]
    exact same_block_refl a

theorem same_block_append (r : List Elem) : ∀ a : array, same_block a (append a r).2 := by
  induction r with
  | nil => intro a; exact same_block_refl a
  | cons v rest ih =>
    intro a
    by_cases hlt : a.size_ < a.capacity_
    · rw [append_cons_ok a v rest hlt]
      exact same_block_trans _ _ _ (same_block_emplace_back a v) (ih _)
    · rw [append_cons_full a v rest (Nat.le_of_not_lt hlt)]
      exact same_block_refl a

theorem same_block_resize_loop (g : Nat) : ∀ (a : array) (count : Nat) (v : Elem),
    same_block a (resize_loop g a count v).2 := by
  induction g with
  | zero =>
    intro a count v
    rw [resize_loop]
    split <;> exact same_block_refl a
  | succ g ih =>
    intro a count v
    rw [resize_loop]
    split
    · exact same_block_refl a
    · by_cases hlt : a.size_ < a.capacity_
      · have h := same_block_emplace_back a v
        rw [emplace_back_ok a v hlt] at h ⊢
        exact same_block_trans _ _ _ h (ih _ count v)
      · rw [emplace_back_full a v (Nat.le_of_not_lt hlt)]
        exact same_block_refl a

theorem same_block_destruct_loop (g : Nat) : ∀ (a : array) (rs rf : Nat),
    same_block a (destruct_loop g a rs rf).2 := by
  induction g with
  | zero =>
    intro a rs rf
    rw [destruct_loop]
    split <;> exact same_block_refl a
  | succ g ih =>
    intro a rs rf
    rw [destruct_loop]
    split
    · exact same_block_refl a
    · split
      · exact same_block_refl a
      · exact same_block_trans a _ _ ⟨rfl, rfl, rfl, rfl⟩ (ih _ _ rf)

theorem same_block_clear (a : array) : same_block a (clear a).2 := by
  unfold clear
  split
  · have h := same_block_destruct_loop (a.end_ - a.begin) a a.end_ a.begin
    unfold destruct
    split
    · rename_i u a1 he
      rw [he] at h
      exact same_block_trans a a1 _ h ⟨rfl, rfl, rfl, rfl⟩
    · exact h
  · exact ⟨rfl, rfl, rfl, rfl⟩

theorem same_block_erase (a : array) (n : Nat) : same_block a (erase a n).2 := by
  unfold erase
  split
  · exact same_block_destruct_loop _ a _ _
  · exact ⟨rfl, rfl, rfl, rfl⟩

theorem same_block_resize_fill (a : array) (n : Nat) (v : Elem) :
    same_block a (resize_fill a n v).2 := by
  unfold resize_fill
  split
  · exact same_block_refl a
  · split
    · exact same_block_clear a
    · split
      · exact same_block_refl a
      · split
        · exact same_block_resize_loop _ a n v
        · split
          · exact ⟨rfl, rfl, rfl, rfl⟩
          · exact same_block_destruct_loop _ a _ _

theorem same_block_resize (a : array) (n : Nat) : same_block a (resize a n).2 := by
  unfold resize
  split
  · exact same_block_refl a
  · split
    · exact same_block_clear a
    · split
      · exact same_block_refl a
      · split
        · split
          · exact ⟨rfl, rfl, rfl, rfl⟩
          · exact same_block_resize_fill a n _
        · split
          · exact ⟨rfl, rfl, rfl, rfl⟩
          · exact same_block_destruct_loop _ a _ _

/-- No public call changes the element type, the capacity or the block. -/
theorem same_block_step (a : array) (c : Call) : same_block a (c.apply a).2 := by
  cases c with
  | emplace_back v => exact same_block_emplace_back a v
  | push_back v => exact same_block_emplace_back a v
  | append r => exact same_block_append r a
  | append_ilist r =>
    show same_block a (append_ilist a r).2
    rw [append_ilist_eq]
    exact same_block_append r a
  | resize n => exact same_block_resize a n
  | resize_fill n v => exact same_block_resize_fill a n v
  | clear => exact same_block_clear a
  | erase n => exact same_block_erase a n

theorem generate_index (a : array) (g : Nat → Elem) (i : Nat) :
    (generate a g).index i = a.index i := by
  obtain ⟨h1, h2, h3, h4, _, _⟩ := generate_loop_shape g a.size_ a a.begin 0
  unfold generate
  generalize generate_loop g a.size_ a a.begin 0 = r at h1 h2 h3 h4 ⊢
  simp only [index, begin]
  rw [h1, h2, h3, h4]

theorem generate_facts (a : array) (g : Nat → Elem) :
    (generate a g).T = a.T ∧ (generate a g).capacity_ = a.capacity_ ∧
    (generate a g).size_ = a.size_ ∧ (generate a g).data_.bytes = a.data_.bytes := by
  obtain ⟨h1, h2, _, _, h5, h6⟩ := generate_loop_shape g a.size_ a a.begin 0
  exact ⟨h1, h2, h5, h6⟩

theorem load_three (m : Block) (p : Nat) :
    m.load p 3 = [m.peek (p + 0), m.peek (p + 1), m.peek (p + 2)] := rfl

/-- Element 0 and the raw element `capacity()` slots further on, after the mirror
test's fill on three byte elements. -/
theorem char3_mirror_elements :
    char3_mirror_state.deref 0 = [1, 0, 0] ∧ char3_mirror_state.deref 4095 = [0, 1, 0] := by
  obtain ⟨hb, h0, h1, h2, h3⟩ := char3_mirror_bytes
  have hT : char3_mirror_state.T.sizeof = 3 := by
    unfold char3_mirror_state mirror_fill
    rw [(generate_facts _ _).1]
    rfl
  have e0 := peek_add_bytes char3_mirror_state.data_ 0
  have e1 := peek_add_bytes char3_mirror_state.data_ 1
  rw [hb] at e0 e1
  constructor
  · rw [deref, hT, load_three, h0, h1, h2]
  · rw [deref, hT, load_three, h3, e0, e1, h0, h1]


theorem countr_zero_loop_spec (bits : Nat) : ∀ x : Nat, 0 < x → x < 2 ^ bits →
    2 ^ countr_zero_loop bits x ∣ x ∧ ¬ 2 ^ (countr_zero_loop bits x + 1) ∣ x := by
  induction bits with
  | zero => intro x h0 h1; simp at h1; omega
  | succ bits ih =>
    intro x h0 h1
    rw [countr_zero_loop]
    split
    · rename_i hodd
      refine ⟨by simp, ?_⟩
      simp only [Nat.zero_add, Nat.pow_one]
      intro hd
      have := Nat.mod_eq_zero_of_dvd hd
      omega
    · rename_i heven
      have he : x % 2 = 0 := by omega
      have hx : x = 2 * (x / 2) := by omega
      obtain ⟨i1, i2⟩ := ih (x / 2) (by omega) (by rw [Nat.pow_succ] at h1; omega)
      constructor
      · rw [Nat.add_comm, Nat.pow_succ, Nat.mul_comm]
        conv_rhs => rw [hx]
        exact Nat.mul_dvd_mul_left 2 i1
      · intro hd
        apply i2
        rw [Nat.add_comm 1, Nat.pow_succ, Nat.mul_comm] at hd
        conv_rhs at hd => rw [hx]
        exact Nat.dvd_of_mul_dvd_mul_left (by decide) hd

theorem countr_zero_spec (x : Nat) (h0 : 0 < x) (h1 : x < 2 ^ 64) :
    2 ^ countr_zero x ∣ x ∧ ∀ k, 2 ^ k ∣ x → k ≤ countr_zero x := by
  obtain ⟨i1, i2⟩ := countr_zero_loop_spec 64 x h0 h1
  refine ⟨i1, fun k hk => ?_⟩
  by_contra hlt
  have hlt2 : ¬ k ≤ countr_zero_loop 64 x := hlt
  exact i2 (Dvd.dvd.trans (pow_dvd_pow 2 (by omega)) hk)

theorem power_test_iff (T : value_type) :
    sizeof_value_type_is_power_of T = true ↔ ∃ k, k ≤ 63 ∧ T.sizeof = 2 ^ k := by
  constructor
  · intro hp
    have h1 : T.sizeof ∣ 2 ^ 63 := by
      simp only [sizeof_value_type_is_power_of, beq_iff_eq] at hp
      exact Nat.dvd_of_mod_eq_zero hp
    exact (Nat.dvd_prime_pow Nat.prime_two).1 h1
  · rintro ⟨k, hk, hs⟩
    simp only [sizeof_value_type_is_power_of, beq_iff_eq, hs]
    exact Nat.mod_eq_zero_of_dvd (pow_dvd_pow 2 hk)


theorem append_defined (r : List Elem) : ∀ a : array, (append a r).1 ≠ .undefined := by
  induction r with
  | nil => intro a h; cases h
  | cons v rest ih =>
    intro a
    by_cases hlt : a.size_ < a.capacity_
    · rw [append_cons_ok a v rest hlt]
      exact ih _
    · rw [append_cons_full a v rest (Nat.le_of_not_lt hlt)]
      intro h; cases h

theorem emplace_back_defined (a : array) (v : Elem) : (emplace_back a v).1 ≠ .undefined := by
  by_cases hlt : a.size_ < a.capacity_
  · rw [emplace_back_ok a v hlt]; intro h; cases h
  · rw [emplace_back_full a v (Nat.le_of_not_lt hlt)]; intro h; cases h

theorem resize_defined (a : array) (n : Nat) (hs : 0 < a.T.sizeof) :
    (resize a n).1 ≠ .undefined := by
  by_cases hn : n ≤ a.capacity_
  · rw [(resize_ok a n hs hn).1]; intro h; cases h
  · simp [resize, Nat.lt_of_not_le hn]

theorem resize_fill_defined (a : array) (n : Nat) (v : Elem) (hs : 0 < a.T.sizeof) :
    (resize_fill a n v).1 ≠ .undefined := by
  by_cases hn : n ≤ a.capacity_
  · rw [(resize_fill_ok a n v hs hn).1]; intro h; cases h
  · simp [resize_fill, Nat.lt_of_not_le hn]

theorem erase_defined (a : array) (n : Nat) (hs : 0 < a.T.sizeof)
    (h : a.T.is_trivially_destructible = true ∨ n ≤ a.size_) : (erase a n).1 ≠ .undefined := by
  by_cases ht : a.T.is_trivially_destructible = true
  · rw [erase_trivial a n ht]; intro h; cases h
  · have ht2 : a.T.is_trivially_destructible = false := by simpa using ht
    rcases h with h | h
    · exact absurd h ht
    · rw [erase_nontrivial a n ht2 hs h]; intro h; cases h

/-- Every public call returns or throws, except `erase(n)` with `n > size()` on an
element type that is not trivially destructible. -/
theorem step_defined (a : array) (c : Call) (hs : 0 < a.T.sizeof)
    (h : a.T.is_trivially_destructible = true ∨ ∀ n, c = Call.erase n → n ≤ a.size_) :
    (c.apply a).1 ≠ .undefined := by
  cases c with
  | emplace_back v => exact emplace_back_defined a v
  | push_back v => exact emplace_back_defined a v
  | append r => exact append_defined r a
  | append_ilist r =>
    show (append_ilist a r).1 ≠ .undefined
    rw [append_ilist_eq]
    exact append_defined r a
  | resize n => exact resize_defined a n hs
  | resize_fill n v => exact resize_fill_defined a n v hs
  | clear =>
    show (clear a).1 ≠ .undefined
    rw [(clear_ok a hs).1]; intro h; cases h
  | erase n =>
    refine erase_defined a n hs ?_
    rcases h with h | h
    · exact Or.inl h
    · exact Or.inr (h n rfl)

theorem erase_undefined (a : array) (n : Nat) (ht : a.T.is_trivially_destructible = false)
    (hn : a.size_ < n) (hs : 0 < a.T.sizeof) : erase a n = (.undefined, a) := by
  have hlt : a.end_ < a.begin + n * a.T.sizeof := by
    simp only [end_]
    have := Nat.mul_lt_mul_of_pos_right hn hs
    omega
  simp only [erase, ht, Bool.not_false, if_true, destruct]
  rw [Nat.sub_eq_zero_of_le (Nat.le_of_lt hlt), destruct_loop, if_neg (Nat.ne_of_lt hlt)]


theorem balanced_emplace_back (a : array) (v : Elem) (hb : balanced a) :
    balanced (emplace_back a v).2 := by
  by_cases hlt : a.size_ < a.capacity_
  · rw [emplace_back_ok a v hlt]
    unfold balanced at hb ⊢
    simp only [construct, List.length_append, List.length_cons, List.length_nil]
    omega
  · rw [emplace_back_full a v (Nat.le_of_not_lt hlt)]
    exact hb

theorem balanced_append (r : List Elem) : ∀ a : array, balanced a → balanced (append a r).2 := by
  induction r with
  | nil => intro a hb; exact hb
  | cons v rest ih =>
    intro a hb
    by_cases hlt : a.size_ < a.capacity_
    · rw [append_cons_ok a v rest hlt]
      exact ih _ (balanced_emplace_back a v hb)
    · rw [append_cons_full a v rest (Nat.le_of_not_lt hlt)]
      exact hb

theorem balanced_resize_loop (g : Nat) : ∀ (a : array) (count : Nat) (v : Elem),
    balanced a → balanced (resize_loop g a count v).2 := by
  induction g with
  | zero =>
    intro a count v hb
    rw [resize_loop]
    split <;> exact hb
  | succ g ih =>
    intro a count v hb
    rw [resize_loop]
    split
    · exact hb
    · by_cases hlt : a.size_ < a.capacity_
      · have h := balanced_emplace_back a v hb
        rw [emplace_back_ok a v hlt] at h ⊢
        exact ih _ count v h
      · rw [emplace_back_full a v (Nat.le_of_not_lt hlt)]
        exact hb

/-- Destructing the last `size() - n` elements keeps the balance. -/
theorem balanced_shrink (a : array) (n : Nat) (l : List Nat) (hb : balanced a)
    (hn : n ≤ a.size_) (hl : l.length = a.size_ - n) :
    balanced { a with destructed := a.destructed ++ l, size_ := a.size_ - (a.size_ - n) } := by
  unfold balanced at hb ⊢
  simp only [List.length_append]
  omega

theorem balanced_clear (a : array) (ht : a.T.is_trivially_destructible = false)
    (hs : 0 < a.T.sizeof) (hb : balanced a) : balanced (clear a).2 := by
  have h := shrink_destruct a 0 hs (Nat.zero_le _)
  simp only [Nat.zero_mul, Nat.add_zero, Nat.sub_zero] at h
  have h3 : a.end_ - a.size_ * a.T.sizeof = a.begin := by simp [end_]
  rw [h3] at h
  simp only [clear, ht, Bool.not_false, if_true, h]
  unfold balanced at hb ⊢
  simp only [List.length_append, List.length_map, List.length_reverse, List.length_range]
  omega

theorem balanced_erase (a : array) (n : Nat) (ht : a.T.is_trivially_destructible = false)
    (hs : 0 < a.T.sizeof) (hb : balanced a) (hd : (erase a n).1 ≠ .undefined) :
    balanced (erase a n).2 := by
  by_cases hn : n ≤ a.size_
  · rw [erase_nontrivial a n ht hs hn]
    exact balanced_shrink a n _ hb hn (by simp)
  · rw [erase_undefined a n ht (Nat.lt_of_not_le hn) hs] at hd
    exact absurd rfl hd

theorem balanced_resize_fill (a : array) (n : Nat) (v : Elem)
    (ht : a.T.is_trivially_destructible = false) (hs : 0 < a.T.sizeof) (hb : balanced a) :
    balanced (resize_fill a n v).2 := by
  unfold resize_fill
  split
  · exact hb
  · split
    · exact balanced_clear a ht hs hb
    · split
      · exact hb
      · split
        · exact balanced_resize_loop _ a n v hb
        · rename_i h1 h2 h3 h4
          rw [if_neg (by simp [ht]), shrink_destruct a n hs (by omega)]
          exact balanced_shrink a n _ hb (by omega) (by simp)

theorem balanced_resize (a : array) (n : Nat)
    (ht : a.T.is_trivially_destructible = false) (hs : 0 < a.T.sizeof) (hb : balanced a) :
    balanced (resize a n).2 := by
  unfold resize
  split
  · exact hb
  · split
    · exact balanced_clear a ht hs hb
    · split
      · exact hb
      · split
        · rw [if_neg (by simp [ht])]
          exact balanced_resize_fill a n _ ht hs hb
        · rename_i h1 h2 h3 h4
          rw [if_neg (by simp [ht]), shrink_destruct a n hs (by omega)]
          exact balanced_shrink a n _ hb (by omega) (by simp)

/-- For an element type that is not trivially destructible, every public call that
returns or throws keeps the balance of constructions and destructions. -/
theorem balanced_step (a : array) (c : Call) (ht : a.T.is_trivially_destructible = false)
    (hs : 0 < a.T.sizeof) (hb : balanced a) (hd : (c.apply a).1 ≠ .undefined) :
    balanced (c.apply a).2 := by
  cases c with
  | emplace_back v => exact balanced_emplace_back a v hb
  | push_back v => exact balanced_emplace_back a v hb
  | append r => exact balanced_append r a hb
  | append_ilist r =>
    show balanced (append_ilist a r).2
    rw [append_ilist_eq]
    exact balanced_append r a hb
  | resize n => exact balanced_resize a n ht hs hb
  | resize_fill n v => exact balanced_resize_fill a n v ht hs hb
  | clear => exact balanced_clear a ht hs hb
  | erase n => exact balanced_erase a n ht hs hb hd

/-- The destructor of a balanced array returns with every constructed element
destructed. -/
theorem balanced_destructor (a : array) (p base : Nat) (hs : 0 < a.T.sizeof)
    (hb : balanced a) :
    (∃ l, (a.destructor p base).1 = .ok l) ∧ (a.destructor p base).2.size_ = 0 ∧
    (a.destructor p base).2.constructed.length = (a.destructor p base).2.destructed.length := by
  have h := shrink_destruct a 0 hs (Nat.zero_le _)
  simp only [Nat.zero_mul, Nat.add_zero, Nat.sub_zero] at h
  have h3 : a.end_ - a.size_ * a.T.sizeof = a.begin := by simp [end_]
  rw [h3] at h
  simp only [destructor, h]
  unfold balanced at hb
  refine ⟨⟨_, rfl⟩, by simp, ?_⟩
  simp only [List.length_append, List.length_map, List.length_reverse, List.length_range]
  omega

end array
end infinite

namespace infinite

theorem mirrored_memory_backing (i : Nat) (hi : i < 4096) :
    mirrored_memory.backing (0 + i) = 0 + i ∧ mirrored_memory.backing (4096 + i) = 0 + i := by
  simp only [mirrored_memory, Nat.zero_add]
  constructor
  · exact Nat.mod_eq_of_lt hi
  · rw [Nat.add_mod_left]; exact Nat.mod_eq_of_lt hi

end infinite

namespace infinite.array

/-- The `erase(100)` of the refill scenario when `T` is not trivially destructible: it
returns with `pos_` where it was and the first 100 elements still live. -/
theorem refill_erase_nontrivial (T : value_type) (k m : Nat) (A : Elem)
    (ht : T.is_trivially_destructible = false)
    (hp : sizeof_value_type_is_power_of T = true) (hm : 0 < m)
    (hA : A.length = T.sizeof) (h100 : 100 < (create T (2 ^ k) m).capacity_) :
    (erase ((create T (2 ^ k) m).resize_fill (create T (2 ^ k) m).capacity_ A).2 100).1
      = .ok () ∧
    (erase ((create T (2 ^ k) m).resize_fill (create T (2 ^ k) m).capacity_ A).2 100).2.pos_
      = 0 ∧
    (erase ((create T (2 ^ k) m).resize_fill (create T (2 ^ k) m).capacity_ A).2 100).2.size_
      = 100 := by
  have hs := sizeof_pos_of_power T hp
  have hw0 := create_wf T k m hs hm
  have hc0 : 0 < (create T (2 ^ k) m).capacity_ := hw0.2.1
  obtain ⟨_, g2, g3, _, g5, _, _⟩ := resize_fill_grow (create T (2 ^ k) m)
    (create T (2 ^ k) m).capacity_ A hw0 hp hA hc0 (Nat.le_refl _)
  have hT : (create T (2 ^ k) m).T = T := rfl
  have hz : (create T (2 ^ k) m).pos_ = 0 := rfl
  rw [erase_nontrivial _ 100 (by rw [g3, hT]; exact ht) (by rw [g3, hT]; exact hs)
    (by rw [g2]; exact Nat.le_of_lt h100)]
  refine ⟨rfl, ?_, ?_⟩
  · show ((create T (2 ^ k) m).resize_fill (create T (2 ^ k) m).capacity_ A).2.pos_ = 0
    rw [g5, hz]
  · show ((create T (2 ^ k) m).resize_fill (create T (2 ^ k) m).capacity_ A).2.size_ -
      (((create T (2 ^ k) m).resize_fill (create T (2 ^ k) m).capacity_ A).2.size_ - 100) = 100
    rw [g2]
    omega

theorem pow_dvd_roundup (j k n : Nat) : 2 ^ j ∣ detail.roundup (n * 2 ^ j) (2 ^ k) := by
  rcases Nat.le_total j k with h | h
  · exact Dvd.dvd.trans (pow_dvd_pow 2 h) (roundup_dvd _ _)
  · have h2 : 2 ^ k ∣ n * 2 ^ j := Dvd.dvd.mul_left (pow_dvd_pow 2 h) n
    rw [roundup_of_dvd _ _ (by positivity) h2]
    exact Dvd.intro_left _ rfl

theorem power_test_of_pow (T : value_type) (j : Nat) (hj : j ≤ 63) (hs : T.sizeof = 2 ^ j) :
    sizeof_value_type_is_power_of T = true :=
  (power_test_iff T).2 ⟨j, hj, hs⟩

theorem pow_le_of_dvd_sizeof (s m : Nat) (h1 : 1 ≤ s) (h2 : s < 2 ^ 64) (hd : 2 ^ m ∣ s) :
    2 ^ m ≤ 2 ^ countr_zero s :=
  Nat.pow_le_pow_right (by decide) ((countr_zero_spec s h1 h2).2 m hd)

end infinite.array

/-! ## The claims -/

namespace infinite

/-- C2: `at(i)` throws `std::out_of_range` exactly when `i >= size()`; otherwise it
returns the reference `operator[](i)` gives, which is `begin()[i]`; in both cases the
array is left as it was. -/
theorem at_bounds_checked (a : array) (i : Nat) :
    ((a.at_ i).1 = .thrown .out_of_range ↔ a.size_ ≤ i) ∧
    (a.at_ i).1 = (if i < a.size_ then .ok (a.index i) else .thrown .out_of_range) ∧
    a.index i = a.begin + i * a.T.sizeof ∧
    (a.at_ i).2 = a := by
  by_cases h : i < a.size_
  · simp [array.at_, array.index, h, Nat.not_le.2 h]
  · simp [array.at_, array.index, h, Nat.le_of_not_lt h]

/-- C3: in a state with `size() <= capacity()`, `push_back(v)` and `emplace_back(v)` throw
`std::length_error` exactly when `size() == capacity()`, and a call that throws leaves
the array (position, size, storage) exactly as it was. -/
theorem push_back_capacity_exceeded (a : array) (v : Elem) (h : a.size_ ≤ a.capacity_) :
    ((a.push_back v).1 = .thrown .length_error ↔ a.size_ = a.capacity_) ∧
    ((a.emplace_back v).1 = .thrown .length_error ↔ a.size_ = a.capacity_) ∧
    ((a.push_back v).1 = .thrown .length_error → (a.push_back v).2 = a) ∧
    ((a.emplace_back v).1 = .thrown .length_error → (a.emplace_back v).2 = a) := by
  rw [array.push_back_eq]
  by_cases hc : a.size_ < a.capacity_
  · rw [array.emplace_back_ok a v hc]
    simp
    omega
  · rw [array.emplace_back_full a v (Nat.le_of_not_lt hc)]
    simp
    omega

theorem push_back_capacity_exceeded_witness :
    full_array.size_ ≤ full_array.capacity_ ∧
    (full_array.push_back (le64 7)).1 = .thrown .length_error ∧
    (full_array.push_back (le64 7)).2 = full_array :=
  ⟨by decide,
   (push_back_capacity_exceeded full_array (le64 7) (by decide)).1.2 (by decide),
   (push_back_capacity_exceeded full_array (le64 7) (by decide)).2.2.1
     ((push_back_capacity_exceeded full_array (le64 7) (by decide)).1.2 (by decide))⟩

/-- C4 fails on the code for an accepted element type whose size is not a power of two:
in the reachable state `char3_state` (size 1 < capacity 1365) `push_back` succeeds and
constructs the new element at raw offset 0, while indexing resolves index `old size() = 1`
to raw offset 4095, so that `at(1)` afterwards does not read back the pushed value. -/
theorem push_back_misplaced_without_power_of_two :
    reachable char3_state ∧
    array.wraps_safely char3 = true ∧
    array.sizeof_value_type_is_power_of char3 = false ∧
    (array.resize (array.create char3 (2 ^ 12) 1) 1365).1 = .ok () ∧
    (array.erase (array.resize (array.create char3 (2 ^ 12) 1) 1365).2 1364).1 = .ok () ∧
    char3_state.size_ = 1 ∧ char3_state.capacity_ = 1365 ∧
    (char3_state.push_back [1, 2, 3]).1 = .ok () ∧
    (char3_state.push_back [1, 2, 3]).2.size_ = 2 ∧
    (char3_state.push_back [1, 2, 3]).2.constructed = [0] ∧
    ((char3_state.push_back [1, 2, 3]).2.at_ 1).1 = .ok 4095 ∧
    (char3_state.push_back [1, 2, 3]).2.deref 4095 = [0, 1, 2] :=
  ⟨reachable.step _ (Call.erase 1364)
    (reachable.step _ (Call.resize 1365) (reachable.fresh char3 12 1 (by decide) (by decide))),
   by decide⟩

/-- C6 fails on the code: with two live `test` objects (12 at raw offset 0, 11 at raw
offset 8), `erase(1)` returns after destructing the object at offset 8, the last one,
and leaves `pos_ = 0`, `size() = 1` and `at(0)` still the object 12: it keeps the front
and drops the back. -/
theorem erase_drops_back_when_not_trivial :
    test.is_trivially_destructible = false ∧
    test_state.size_ = 2 ∧ test_state.pos_ = 0 ∧
    test_state.index 0 = 0 ∧ test_state.index 1 = 8 ∧
    test_state.deref (test_state.index 0) = le64 12 ∧
    test_state.deref (test_state.index 1) = le64 11 ∧
    (test_state.erase 1).1 = .ok () ∧
    (test_state.erase 1).2.destructed = [8] ∧
    (test_state.erase 1).2.pos_ = 0 ∧
    (test_state.erase 1).2.size_ = 1 ∧
    (test_state.erase 1).2.deref ((test_state.erase 1).2.index 0) = le64 12 := by
  decide

/-- C7 fails on the code for `back()`: with one live element, `front()` is the reference
`at(0)` returns, but `back()` is the reference of index `size()`, one element past
`at(size()-1)`, and designates storage that holds no live element. -/
theorem back_is_one_past_last :
    single_state.size_ = 1 ∧
    (single_state.at_ 0).1 = .ok single_state.front ∧
    (single_state.at_ (single_state.size_ - 1)).1 = .ok 0 ∧
    single_state.back = 8 ∧
    single_state.back = single_state.index single_state.size_ ∧
    single_state.deref 0 = le64 5 ∧
    single_state.deref single_state.back = le64 0 := by
  decide

/-- C8: `resize(n)` and `resize(n, fill)` throw `std::length_error` exactly when
`n > capacity()`, and then leave the array as it was; for every `n <= capacity()` they
return with `size() == n`, and when they shrink (`n < size()`) the surviving elements
`at(0..n-1)` are unchanged. -/
theorem resize_capacity_contract (a : array) (n : Nat) (fill : Elem) (hs : 0 < a.T.sizeof) :
    ((a.resize n).1 = .thrown .length_error ↔ a.capacity_ < n) ∧
    ((a.resize_fill n fill).1 = .thrown .length_error ↔ a.capacity_ < n) ∧
    (a.capacity_ < n → (a.resize n).2 = a ∧ (a.resize_fill n fill).2 = a) ∧
    (n ≤ a.capacity_ →
      (a.resize n).1 = .ok () ∧ (a.resize n).2.size_ = n ∧
      (a.resize_fill n fill).1 = .ok () ∧ (a.resize_fill n fill).2.size_ = n) ∧
    (n ≤ a.capacity_ → n < a.size_ → ∀ i, i < n →
      (a.resize n).2.deref ((a.resize n).2.index i) = a.deref (a.index i) ∧
      (a.resize_fill n fill).2.deref ((a.resize_fill n fill).2.index i)
        = a.deref (a.index i)) := by
  have hthrow : a.capacity_ < n →
      a.resize n = (.thrown .length_error, a) ∧
      a.resize_fill n fill = (.thrown .length_error, a) := fun h => by
    simp [array.resize, array.resize_fill, h]
  refine ⟨⟨fun h => ?_, fun h => by rw [(hthrow h).1]⟩,
    ⟨fun h => ?_, fun h => by rw [(hthrow h).2]⟩,
    fun h => ⟨by rw [(hthrow h).1], by rw [(hthrow h).2]⟩,
    fun h => ⟨(array.resize_ok a n hs h).1, (array.resize_ok a n hs h).2,
      (array.resize_fill_ok a n fill hs h).1, (array.resize_fill_ok a n fill hs h).2⟩,
    fun h hlt i hi => ⟨array.resize_shrink a n hs hlt h i hi,
      array.resize_fill_shrink a n fill hs hlt h i hi⟩⟩
  · by_contra hc
    rw [(array.resize_ok a n hs (Nat.le_of_not_lt hc)).1] at h
    cases h
  · by_contra hc
    rw [(array.resize_fill_ok a n fill hs (Nat.le_of_not_lt hc)).1] at h
    cases h

theorem resize_capacity_contract_witness :
    0 < test_state.T.sizeof ∧
    (test_state.resize 1).1 = .ok () ∧ (test_state.resize 1).2.size_ = 1 ∧
    (test_state.resize 1).2.deref ((test_state.resize 1).2.index 0) = le64 12 ∧
    (test_state.resize 1025).1 = .thrown .length_error :=
  ⟨by decide,
   ((resize_capacity_contract test_state 1 [] (by decide)).2.2.2.1 (by decide)).1,
   ((resize_capacity_contract test_state 1 [] (by decide)).2.2.2.1 (by decide)).2.1,
   (((resize_capacity_contract test_state 1 [] (by decide)).2.2.2.2 (by decide) (by decide)
      0 (by decide)).1).trans (by decide),
   (resize_capacity_contract test_state 1025 [] (by decide)).1.2 (by decide)⟩

/-- C9 fails on the code for the refill scenario on an element type that is not trivially
destructible.  With `struct test` (8 bytes, a power of two), 4096 byte pages and capacity
512, the calls `resize(capacity(), A); erase(100); resize(capacity(), B)` on a fresh
array all return, but `erase(100)` leaves `pos_ = 0` and `size() = 100`: it keeps the
first 100 elements and destructs the other 412.  The array is then full with `A` at the
indices below 100 and `B` from index 100 on, so the element at index 100, one of the
first `capacity() - 100 = 412`, is `B`, not `A`.  Apart from that the claim holds: for an
element type whose size is a power of two, a well-formed array (as every reachable array
is) and `size() < n <= capacity()`, `resize(n, fill)` returns, leaves `pos` unchanged,
leaves `at(i)` unchanged for `i < old size()` and makes `at(i) == fill` for
`old size() <= i < n`; and for a trivially destructible such type the scenario leaves a
full array whose first `capacity() - 100` elements are `A` and whose remaining elements
are `B`. -/
theorem refill_keeps_front_when_not_trivial :
    test.is_trivially_destructible = false ∧
    array.sizeof_value_type_is_power_of test = true ∧
    (array.create test (2 ^ 12) 512).capacity_ = 512 ∧
    (array.erase ((array.create test (2 ^ 12) 512).resize_fill 512 (le64 1)).2 100).1
      = .ok () ∧
    (array.erase ((array.create test (2 ^ 12) 512).resize_fill 512 (le64 1)).2 100).2.pos_
      = 0 ∧
    (array.erase ((array.create test (2 ^ 12) 512).resize_fill 512 (le64 1)).2 100).2.size_
      = 100 ∧
    refill test 12 512 (le64 1) (le64 2) = some (refill_state test 12 512 (le64 1) (le64 2)) ∧
    (refill_state test 12 512 (le64 1) (le64 2)).capacity_ = 512 ∧
    (refill_state test 12 512 (le64 1) (le64 2)).size_ = 512 ∧
    (∀ i, i < 100 →
      (refill_state test 12 512 (le64 1) (le64 2)).deref
        ((refill_state test 12 512 (le64 1) (le64 2)).index i) = le64 1) ∧
    (∀ i, 100 ≤ i → i < 512 →
      (refill_state test 12 512 (le64 1) (le64 2)).deref
        ((refill_state test 12 512 (le64 1) (le64 2)).index i) = le64 2) ∧
    100 < (refill_state test 12 512 (le64 1) (le64 2)).capacity_ - 100 ∧
    (refill_state test 12 512 (le64 1) (le64 2)).deref
      ((refill_state test 12 512 (le64 1) (le64 2)).index 100) = le64 2 ∧
    le64 2 ≠ le64 1 ∧
    (∀ (a : array) (n : Nat) (fill : Elem), a.wf →
      array.sizeof_value_type_is_power_of a.T = true → fill.length = a.T.sizeof →
      a.size_ < n → n ≤ a.capacity_ →
      (a.resize_fill n fill).1 = .ok () ∧
      (a.resize_fill n fill).2.pos_ = a.pos_ ∧
      (a.resize_fill n fill).2.size_ = n ∧
      (∀ i, i < a.size_ →
        (a.resize_fill n fill).2.deref ((a.resize_fill n fill).2.index i) =
          a.deref (a.index i)) ∧
      (∀ i, a.size_ ≤ i → i < n →
        (a.resize_fill n fill).2.deref ((a.resize_fill n fill).2.index i) = fill)) ∧
    (∀ (T : value_type) (k m : Nat) (A B : Elem),
      T.is_trivially_destructible = true → array.sizeof_value_type_is_power_of T = true →
      0 < m → A.length = T.sizeof → B.length = T.sizeof →
      refill T k m A B = some (refill_state T k m A B) ∧
      (refill_state T k m A B).size_ = (refill_state T k m A B).capacity_ ∧
      (∀ i, i < (refill_state T k m A B).capacity_ - 100 →
        (refill_state T k m A B).deref ((refill_state T k m A B).index i) = A) ∧
      (∀ i, (refill_state T k m A B).capacity_ - 100 ≤ i →
        i < (refill_state T k m A B).capacity_ →
        (refill_state T k m A B).deref ((refill_state T k m A B).index i) = B)) := by
  have hcap : (array.create test (2 ^ 12) 512).capacity_ = 512 := by decide
  obtain ⟨h1, h2, h3⟩ := array.refill_nontrivial test 12 512 (le64 1) (le64 2) rfl rfl
    (by decide) (by decide) (by decide) (by rw [hcap]; decide)
  obtain ⟨e1, e2, e3⟩ := array.refill_erase_nontrivial test 12 512 (le64 1) rfl rfl
    (by decide) (by decide) (by rw [hcap]; decide)
  rw [hcap] at h2 h3 e1 e2 e3
  have hsz : (refill_state test 12 512 (le64 1) (le64 2)).size_ = 512 := by
    rw [← array.contents_length, h3, List.length_append, List.length_replicate,
      List.length_replicate]
  refine ⟨rfl, rfl, hcap, e1, e2, e3, h1, h2, hsz, fun i hi => ?_, fun i hi1 hi2 => ?_,
    by rw [h2]; decide, ?_, by decide, fun a n fill hw hp hf h1 h2 => ?_,
    fun T k m A B ht hpT hm hA hB => ?_⟩
  · apply array.deref_of_contents _ _ h3 i
    rw [List.getElem?_append_left (by rw [List.length_replicate]; exact hi),
      List.getElem?_replicate, if_pos hi]
  · apply array.deref_of_contents _ _ h3 i
    rw [List.getElem?_append_right (by rw [List.length_replicate]; exact hi1),
      List.length_replicate, List.getElem?_replicate, if_pos (by omega)]
  · exact array.deref_of_contents _ _ h3 100 (le64 2) (by
      rw [List.getElem?_append_right (by rw [List.length_replicate]), List.length_replicate,
        List.getElem?_replicate, if_pos (by omega)])
  · obtain ⟨g1, g2, _, _, g5, _, g7⟩ := array.resize_fill_grow a n fill hw hp hf h1 h2
    refine ⟨g1, g5, g2, fun i hi => ?_, fun i hi1 hi2 => ?_⟩
    · apply array.deref_of_contents _ _ g7 i
      rw [List.getElem?_append_left (by rw [array.contents_length]; exact hi)]
      exact array.contents_get a i hi
    · apply array.deref_of_contents _ _ g7 i
      rw [List.getElem?_append_right (by rw [array.contents_length]; exact hi1),
        array.contents_length, List.getElem?_replicate, if_pos (by omega)]
  · obtain ⟨r1, r2, r3, r4⟩ := array.refill_trivial T k m A B ht hpT hm hA hB
    refine ⟨r1, by rw [r2, r3], fun i hi => ?_, fun i hi1 hi2 => ?_⟩
    · rw [r3] at hi
      apply array.deref_of_contents _ _ r4 i
      rw [List.getElem?_append_left (by rw [List.length_replicate]; exact hi),
        List.getElem?_replicate, if_pos hi]
    · rw [r3] at hi1 hi2
      apply array.deref_of_contents _ _ r4 i
      rw [List.getElem?_append_right (by rw [List.length_replicate]; exact hi1),
        List.length_replicate, List.getElem?_replicate, if_pos (by omega)]

/-- What holds of growing and of the refill, at concrete inputs: growing the array of
the example run to five elements appends the fill value, and the refill scenario on
`array<unsigned long long>` with capacity 512 leaves `A` at index 100 and `B` at
index 412. -/
theorem refill_keeps_front_when_not_trivial_witness :
    window_result.wf ∧ window_result.size_ < 5 ∧ 5 ≤ window_result.capacity_ ∧
    (window_result.resize_fill 5 (le64 9)).2.size_ = 5 ∧
    (window_result.resize_fill 5 (le64 9)).2.deref
      ((window_result.resize_fill 5 (le64 9)).2.index 4) = le64 9 ∧
    (refill_state ulonglong 12 512 (le64 1) (le64 2)).deref
      ((refill_state ulonglong 12 512 (le64 1) (le64 2)).index 100) = le64 1 ∧
    (refill_state ulonglong 12 512 (le64 1) (le64 2)).deref
      ((refill_state ulonglong 12 512 (le64 1) (le64 2)).index 412) = le64 2 := by
  obtain ⟨_, _, _, _, _, _, _, _, _, _, _, _, _, _, hg, ht⟩ :=
    refill_keeps_front_when_not_trivial
  obtain ⟨_, _, g3, _, g5⟩ := hg window_result 5 (le64 9) (by decide) rfl (by decide)
    (by decide) (by decide)
  obtain ⟨_, _, t3, t4⟩ := ht ulonglong 12 512 (le64 1) (le64 2) rfl rfl (by decide)
    (by decide) (by decide)
  have hcap : (array.create ulonglong (2 ^ 12) 512).capacity_ = 512 := by decide
  have hc : (refill_state ulonglong 12 512 (le64 1) (le64 2)).capacity_ = 512 :=
    (array.refill_trivial ulonglong 12 512 (le64 1) (le64 2) rfl rfl (by decide)
      (by decide) (by decide)).2.2.1.trans hcap
  rw [hc] at t3 t4
  exact ⟨by decide, by decide, by decide, g3, g5 4 (by decide) (by decide),
    t3 100 (by decide), t4 412 (by decide) (by decide)⟩

end infinite

namespace infinite

/-- C11 as stated fails on the code for an accepted element type whose size is not a
power of two: with three byte elements, 4096 byte pages and a request of one element
the capacity is 1365 and `1365 * 3 = 4095` is not the byte size 4096 of the mirror; after
the ring is filled, the raw element `data[0 + 1365]` starts at byte 4095, not at a byte
that is the same cell as byte 0, and reads `{0, 1, 0}` while `data[0]` reads `{1, 0, 0}`. -/
theorem mirror_identity_counterexample :
    array.wraps_safely char3 = true ∧
    (array.resize (array.create char3 (2 ^ 12) 1) 1365).1 = .ok () ∧
    char3_mirror_state.capacity_ = 1365 ∧ char3_mirror_state.size_ = 1365 ∧
    char3_mirror_state.data_.bytes = 4096 ∧
    char3_mirror_state.index 0 = 0 ∧ char3_mirror_state.index (0 + 1365) = 4095 ∧
    4095 % char3_mirror_state.data_.bytes ≠ 0 % char3_mirror_state.data_.bytes ∧
    char3_mirror_state.deref (char3_mirror_state.index 0) = [1, 0, 0] ∧
    char3_mirror_state.deref (char3_mirror_state.index (0 + 1365)) = [0, 1, 0] := by
  have hb := array.char3_mirror_bytes.1
  have hi0 : char3_mirror_state.index 0 = 0 :=
    (array.generate_index _ _ 0).trans (by decide)
  have hi1 : char3_mirror_state.index (0 + 1365) = 4095 :=
    (array.generate_index _ _ (0 + 1365)).trans (by decide)
  refine ⟨by decide, by decide, (array.generate_facts _ _).2.1.trans (by decide),
    (array.generate_facts _ _).2.2.1.trans (by decide), hb, hi0, hi1, by rw [hb]; decide, ?_, ?_⟩
  · rw [hi0]; exact array.char3_mirror_elements.1
  · rw [hi1]; exact array.char3_mirror_elements.2

/-- C11, amended: for every element type whose size is a power of two and every
well-formed array of it (as every array constructed on a platform whose page size is a
power of two is), with `C = capacity()`: the raw element `data[i + C]` lies exactly
`byte_size` bytes after `data[i]`, so each of its bytes is the same cell as the
corresponding byte of `data[i]`, and it reads equal to `data[i]`.  In particular, when a
fresh array of such a type (page size `2^k`, request `n >= 1`) is resized to its capacity
and filled, the resize returns, the array is full and `data[l + C] == data[l]` for
all `l`. -/
theorem mirror_identity (a : array) (i : Nat) (hw : a.wf)
    (hp : array.sizeof_value_type_is_power_of a.T = true) :
    a.index (i + a.capacity_) = a.index i + a.data_.bytes ∧
    (∀ j, (a.index (i + a.capacity_) + j) % a.data_.bytes = (a.index i + j) % a.data_.bytes) ∧
    a.deref (a.index (i + a.capacity_)) = a.deref (a.index i) ∧
    (∀ (T : value_type) (k n : Nat) (g : Nat → Elem),
      array.sizeof_value_type_is_power_of T = true → 0 < n →
      ((array.create T (2 ^ k) n).resize (array.create T (2 ^ k) n).capacity_).1 = .ok () ∧
      (mirror_fill T (2 ^ k) n g).size_ = (mirror_fill T (2 ^ k) n g).capacity_ ∧
      (mirror_fill T (2 ^ k) n g).capacity_ = (array.create T (2 ^ k) n).capacity_ ∧
      ∀ l,
        (mirror_fill T (2 ^ k) n g).deref
          ((mirror_fill T (2 ^ k) n g).index (l + (array.create T (2 ^ k) n).capacity_))
        = (mirror_fill T (2 ^ k) n g).deref ((mirror_fill T (2 ^ k) n g).index l)) := by
  have h1 := array.index_add_capacity a hw hp i
  refine ⟨h1, fun j => ?_, ?_, ?_⟩
  · rw [h1, Nat.add_right_comm, Nat.add_mod_right]
  · rw [h1, array.deref_add_bytes]
  · intro T k n g hpT hn
    have hs := array.sizeof_pos_of_power T hpT
    have hw0 := array.create_wf T k n hs hn
    have hr := array.resize_ok (array.create T (2 ^ k) n) (array.create T (2 ^ k) n).capacity_
      hs (Nat.le_refl _)
    have hwr := array.wf_resize (array.create T (2 ^ k) n) (array.create T (2 ^ k) n).capacity_ hw0
    have hwg : (mirror_fill T (2 ^ k) n g).wf := array.generate_wf _ g hwr
    obtain ⟨f0, f1, f2, _⟩ : (mirror_fill T (2 ^ k) n g).T = _ ∧
        (mirror_fill T (2 ^ k) n g).capacity_ = _ ∧ (mirror_fill T (2 ^ k) n g).size_ = _ ∧
        (mirror_fill T (2 ^ k) n g).data_.bytes = _ := array.generate_facts
      ((array.create T (2 ^ k) n).resize (array.create T (2 ^ k) n).capacity_).2 g
    have hcr := (array.same_block_resize (array.create T (2 ^ k) n)
      (array.create T (2 ^ k) n).capacity_).2.1
    have hTr := (array.same_block_resize (array.create T (2 ^ k) n)
      (array.create T (2 ^ k) n).capacity_).1
    refine ⟨hr.1, by rw [f2, f1, hr.2, hcr], by rw [f1, hcr], fun l => ?_⟩
    have hm := array.index_add_capacity _ hwg (by rw [f0, hTr]; exact hpT) l
    rw [f1, hcr] at hm
    rw [hm, array.deref_add_bytes]

/-- The mirror test: with 8 byte integers and a requested capacity of 4096, after the
fill `data[l + 4096] == data[l]` for all `l < 4096`. -/
theorem mirror_identity_witness :
    single_state.wf ∧
    single_state.deref (single_state.index (0 + single_state.capacity_))
      = single_state.deref (single_state.index 0) ∧
    ∀ l, l < 4096 →
      mirror_state.deref (mirror_state.index (l + 4096))
        = mirror_state.deref (mirror_state.index l) :=
  ⟨by decide, (mirror_identity single_state 0 (by decide) rfl).2.2.1,
   fun l _ =>
    ((mirror_identity single_state 0 (by decide) rfl).2.2.2 ulonglong 12 4096
      (fun l => le64 (l + 1)) rfl (by decide)).2.2.2 l⟩

/-- C12 (construction postcondition): for every requested capacity `n`, element size
`s >= 1` and page size `p >= 1`, the constructed array has `size() == 0`, `pos == 0`,
`empty()` true and `capacity() >= n`, where `capacity() == roundup(n*s, p) / s`. -/
theorem construction_postcondition (T : value_type) (p n : Nat) (hs : 0 < T.sizeof)
    (hp : 0 < p) :
    (array.create T p n).size = 0 ∧ (array.create T p n).pos_ = 0 ∧
    (array.create T p n).empty = true ∧ n ≤ (array.create T p n).capacity ∧
    (array.create T p n).capacity = detail.roundup (n * T.sizeof) p / T.sizeof :=
  ⟨rfl, rfl, rfl, array.capacity_ge_request T.sizeof p n hs hp, rfl⟩

theorem construction_postcondition_witness :
    0 < ulonglong.sizeof ∧ 0 < 4096 ∧
    (array.create ulonglong 4096 4096).size = 0 ∧
    4096 ≤ (array.create ulonglong 4096 4096).capacity :=
  ⟨by decide, by decide,
   (construction_postcondition ulonglong 4096 4096 (by decide) (by decide)).1,
   (construction_postcondition ulonglong 4096 4096 (by decide) (by decide)).2.2.2.1⟩

/-- C13 fails on the code: with one live `test` object (constructed at raw offset 0),
`erase(2)` runs `destruct(end(), begin() + 2)` from pointer 8 towards pointer 16.  The
loop's first step destructs the live object and leaves `size() = 0` with nothing live;
its exit test still fails, the next step is below the start of the block, where no
element was constructed, and for no number of steps does the loop return.  Apart from
that the balance holds: a fresh array is balanced, every public call that returns or
throws keeps the number of constructed and not yet destructed elements equal to
`size()`, and the destructor leaves none. -/
theorem erase_beyond_size_runs_away :
    test.is_trivially_destructible = false ∧
    test_one.size_ = 1 ∧ test_one.constructed = [0] ∧ test_one.destructed = [] ∧
    test_one.live_count = 1 ∧
    test_one.end_ = 8 ∧ test_one.begin + 2 * test_one.T.sizeof = 16 ∧
    (test_one.erase 2).1 = .undefined ∧
    (array.destruct_loop 1 test_one 8 16).2.destructed = [0] ∧
    (array.destruct_loop 1 test_one 8 16).2.size_ = 0 ∧
    (array.destruct_loop 1 test_one 8 16).2.live_count = 0 ∧
    (array.destruct_loop 1 test_one 8 16).1 = .undefined ∧
    (∀ fuel, (array.destruct_loop fuel test_one 8 16).1 = .undefined) ∧
    (∀ (T : value_type) (p n : Nat), (array.create T p n).balanced) ∧
    (∀ (a : array) (c : Call), a.T.is_trivially_destructible = false → 0 < a.T.sizeof →
      a.balanced → (c.apply a).1 ≠ .undefined →
      (c.apply a).2.balanced ∧ (c.apply a).2.live_count = (c.apply a).2.size_) ∧
    (∀ (a : array) (p base : Nat), 0 < a.T.sizeof → a.balanced →
      (∃ l, (a.destructor p base).1 = .ok l) ∧ (a.destructor p base).2.live_count = 0) := by
  refine ⟨by decide, by decide, by decide, by decide, by decide, by decide, by decide,
    by decide, by decide, by decide, by decide, by decide, fun fuel => ?_,
    fun T p n => rfl, fun a c ht hs hb hd => ?_, fun a p base hs hb => ?_⟩
  · match fuel with
    | 0 => rfl
    | 1 => rfl
    | n + 2 => rfl
  · have h := array.balanced_step a c ht hs hb hd
    refine ⟨h, ?_⟩
    unfold array.balanced at h
    unfold array.live_count
    omega
  · obtain ⟨h1, _, h3⟩ := array.balanced_destructor a p base hs hb
    refine ⟨h1, ?_⟩
    unfold array.live_count
    omega

/-- C14 fails on the code for `erase(n)` with `n > size()` on an element type that is not
trivially destructible: on the empty `array<test>` `erase(1)` runs
`destruct(end(), begin() + 1)` from pointer 0 towards pointer 8, whose first step is
already below the start of the block, and the call neither returns nor throws.  Every
other public call, and every call on a trivially destructible type, returns or throws
and leaves `size() <= capacity()` and the capacity unchanged. -/
theorem size_invariant_except_erase_beyond_size :
    (∀ (a : array) (c : Call), a.wf →
      (a.T.is_trivially_destructible = true ∨ ∀ n, c = Call.erase n → n ≤ a.size_) →
      (c.apply a).1 ≠ .undefined ∧
      (c.apply a).2.size_ ≤ (c.apply a).2.capacity_ ∧
      (c.apply a).2.capacity_ = a.capacity_) ∧
    (∀ (a : array) (n : Nat), a.wf → a.T.is_trivially_destructible = false → a.size_ < n →
      (a.erase n).1 = .undefined) ∧
    test.is_trivially_destructible = false ∧ test_empty.wf ∧ test_empty.size_ = 0 ∧
    test_empty.end_ = 0 ∧ test_empty.begin + 1 * test_empty.T.sizeof = 8 ∧
    (test_empty.erase 1).1 = .undefined ∧
    (∀ fuel, (array.destruct_loop fuel test_empty 0 8).1 = .undefined) := by
  refine ⟨fun a c hw h => ⟨array.step_defined a c hw.1 h, (array.wf_step a c hw).2.2.1,
      (array.same_block_step a c).2.1⟩,
    fun a n hw ht hn => by rw [array.erase_undefined a n ht hn hw.1],
    by decide, by decide, by decide, by decide, by decide, by decide, fun fuel => ?_⟩
  match fuel with
  | 0 => rfl
  | n + 1 => rfl

/-- C15 (live range): in every well-formed state (so with `size() <= capacity()`), on
both index paths, the byte offset of `begin()` from the block base is
`(pos * sizeof(T)) mod byte_size`, the range `[begin(), end())` of `size()*sizeof(T)`
bytes lies inside the mirrored block `[0, 2*byte_size)`, and for every `i < size()` the
element `begin()[i]` lies inside that range: an in-bounds access that is never split. -/
theorem live_range_in_block (a : array) (hw : a.wf) :
    a.begin = (a.pos_ * a.T.sizeof) % a.data_.bytes ∧
    a.begin < a.data_.bytes ∧
    a.end_ = a.begin + a.size_ * a.T.sizeof ∧
    a.end_ < 2 * a.data_.bytes ∧
    ∀ i, i < a.size_ →
      a.begin ≤ a.index i ∧ a.index i + a.T.sizeof ≤ a.end_ ∧
      a.index i + a.T.sizeof ≤ 2 * a.data_.bytes := by
  have hb := array.begin_eq_mod a hw
  have hpos := array.bytes_pos a hw
  have hlt : a.begin < a.data_.bytes := by rw [hb]; exact Nat.mod_lt _ hpos
  have hsz : a.size_ * a.T.sizeof ≤ a.data_.bytes :=
    Nat.le_trans (Nat.mul_le_mul_right _ hw.2.2.1) (array.capacity_bytes_le a hw)
  refine ⟨hb, hlt, rfl, by simp only [array.end_]; omega, fun i hi => ?_⟩
  have h1 : i * a.T.sizeof + a.T.sizeof ≤ a.size_ * a.T.sizeof := by
    rw [← Nat.succ_mul]; exact Nat.mul_le_mul_right _ hi
  simp only [array.index, array.end_]
  omega

theorem live_range_in_block_witness :
    char3_state.wf ∧ char3_state.begin = 4092 ∧ char3_state.end_ = 4095 ∧
    char3_state.begin = (char3_state.pos_ * char3_state.T.sizeof) % char3_state.data_.bytes :=
  ⟨by decide, by decide, by decide, (live_range_in_block char3_state (by decide)).1⟩

/-- C16 (the mirror check accepts a true mirror and cleans up): for two regions `r1`, `r2`
of equal size `>= 2`, `r2` starting where `r1` ends, whose `i`-th bytes are both backed by
the storage cell at offset `i` (cell `s0 + i`), `is_mirroring_valid(r1, r2)` returns true;
afterwards the storage bytes at offsets 0 and `size - 1` are zero, every other storage
byte is unchanged, and the backing of the addresses is as before. -/
theorem mirror_check_accepts_true_mirror (m : Memory) (r1 r2 : detail.mirrored_region)
    (s0 : Nat) (hsize : 2 ≤ r1.size_) (heq : r2.size_ = r1.size_)
    (hadj : r2.addr_ = r1.addr_ + r1.size_)
    (hback : ∀ i, i < r1.size_ →
      m.backing (r1.addr_ + i) = s0 + i ∧ m.backing (r2.addr_ + i) = s0 + i) :
    (detail.mirrored_region.is_mirroring_valid m r1 r2).1 = true ∧
    (detail.mirrored_region.is_mirroring_valid m r1 r2).2.cell s0 = 0 ∧
    (detail.mirrored_region.is_mirroring_valid m r1 r2).2.cell (s0 + (r1.size_ - 1)) = 0 ∧
    (∀ c, c ≠ s0 → c ≠ s0 + (r1.size_ - 1) →
      (detail.mirrored_region.is_mirroring_valid m r1 r2).2.cell c = m.cell c) ∧
    (detail.mirrored_region.is_mirroring_valid m r1 r2).2.backing = m.backing := by
  have b0 := hback 0 (by omega)
  have b1 := hback (r1.size_ - 1) (by omega)
  simp only [Nat.add_zero] at b0
  obtain ⟨b01, b02⟩ := b0
  obtain ⟨b11, b12⟩ := b1
  have hne : s0 + (r1.size_ - 1) ≠ s0 := by omega
  have hne2 : s0 ≠ s0 + (r1.size_ - 1) := by omega
  have hval : detail.mirrored_region.is_mirroring_valid m r1 r2 =
      (true, ((((((m.write r1.addr_ 0).write r2.addr_ 0x55).write
        (r2.addr_ + (r1.size_ - 1)) 0).write (r1.addr_ + (r1.size_ - 1)) 0xAA).write
        r2.addr_ 0).write (r1.addr_ + (r1.size_ - 1)) 0)) := by
    simp only [detail.mirrored_region.is_mirroring_valid,
      detail.mirrored_region.is_mirroring_valid_addr]
    rw [if_neg (by simpa using hadj), if_pos]
    simp [Memory.read, Memory.write, b01, b02, b11, b12, hne, hne2]
  rw [hval]
  refine ⟨rfl, ?_, ?_, fun c hc1 hc2 => ?_, rfl⟩
  · simp [Memory.write, b01, b02, b11, b12, hne, hne2]
  · simp [Memory.write, b01, b02, b11, b12, hne, hne2]
  · simp [Memory.write, b01, b02, b11, b12, hc1, hc2]

theorem mirror_check_accepts_true_mirror_witness :
    (detail.mirrored_region.is_mirroring_valid mirrored_memory lower_half upper_half).1 = true ∧
    (detail.mirrored_region.is_mirroring_valid mirrored_memory lower_half upper_half).2.cell 0
      = 0 ∧
    (detail.mirrored_region.is_mirroring_valid mirrored_memory lower_half upper_half).2.cell 5
      = mirrored_memory.cell 5 :=
  ⟨(mirror_check_accepts_true_mirror mirrored_memory lower_half upper_half 0 (by decide) rfl
      rfl mirrored_memory_backing).1,
   (mirror_check_accepts_true_mirror mirrored_memory lower_half upper_half 0 (by decide) rfl
      rfl mirrored_memory_backing).2.1,
   (mirror_check_accepts_true_mirror mirrored_memory lower_half upper_half 0 (by decide) rfl
      rfl mirrored_memory_backing).2.2.2.1 5 (by decide) (by decide)⟩

/-- C17 (the mirror check is sound at the boundary bytes): in a memory where every address
is backed by some storage cell, if `is_mirroring_valid(r1, r2)` returns true then `r2`
starts at `r1`'s address plus size, the first bytes of `r1` and `r2` are the same storage
cell, and the bytes at offset `size - 1` (the last bytes, `r2` being of `r1`'s size) are
the same storage cell; so it returns false for regions that are not adjacent and for
regions whose first or last bytes are backed by different cells. The allocator hands out
`r1`'s address only when the check returned true. -/
theorem mirror_check_sound (m : Memory) (r1 r2 : detail.mirrored_region) :
    ((detail.mirrored_region.is_mirroring_valid m r1 r2).1 = true →
      r2.addr_ = r1.addr_ + r1.size_ ∧
      m.backing r1.addr_ = m.backing r2.addr_ ∧
      m.backing (r1.addr_ + (r1.size_ - 1)) = m.backing (r2.addr_ + (r1.size_ - 1))) ∧
    (r2.addr_ ≠ r1.addr_ + r1.size_ →
      (detail.mirrored_region.is_mirroring_valid m r1 r2).1 = false) ∧
    (m.backing r1.addr_ ≠ m.backing r2.addr_ →
      (detail.mirrored_region.is_mirroring_valid m r1 r2).1 = false) ∧
    (m.backing (r1.addr_ + (r1.size_ - 1)) ≠ m.backing (r2.addr_ + (r1.size_ - 1)) →
      (detail.mirrored_region.is_mirroring_valid m r1 r2).1 = false) ∧
    (∀ p, (default_allocator_backend.allocate_mapped m r1 r2).1 = some p →
      p = r1.addr_ ∧ (detail.mirrored_region.is_mirroring_valid m r1 r2).1 = true) := by
  have key : (detail.mirrored_region.is_mirroring_valid m r1 r2).1 = true →
      r2.addr_ = r1.addr_ + r1.size_ ∧
      m.backing r1.addr_ = m.backing r2.addr_ ∧
      m.backing (r1.addr_ + (r1.size_ - 1)) = m.backing (r2.addr_ + (r1.size_ - 1)) := by
    intro h
    simp only [detail.mirrored_region.is_mirroring_valid,
      detail.mirrored_region.is_mirroring_valid_addr] at h
    by_cases hadj : r2.addr_ = r1.addr_ + r1.size_
    · rw [if_neg (by simpa using hadj)] at h
      by_cases hc : ((((m.write r1.addr_ 0).write r2.addr_ 0x55).write
          (r2.addr_ + (r1.size_ - 1)) 0).write (r1.addr_ + (r1.size_ - 1)) 0xAA).read r1.addr_
            = 0x55 ∧
          ((((m.write r1.addr_ 0).write r2.addr_ 0x55).write
          (r2.addr_ + (r1.size_ - 1)) 0).write (r1.addr_ + (r1.size_ - 1)) 0xAA).read
            (r2.addr_ + (r1.size_ - 1)) = 0xAA
      · obtain ⟨c1, c2⟩ := hc
        simp only [Memory.read, Memory.write] at c1 c2
        refine ⟨hadj, ?_, ?_⟩
        · by_contra hne
          split_ifs at c1
          simp_all
        · by_contra hne
          split_ifs at c2
          simp_all
      · rw [if_neg hc] at h
        simp at h
    · rw [if_pos (by simpa using hadj)] at h
      simp at h
  refine ⟨key, fun h => ?_, fun h => ?_, fun h => ?_, fun p hp => ?_⟩
  · cases hv : (detail.mirrored_region.is_mirroring_valid m r1 r2).1
    · rfl
    · exact absurd (key hv).1 h
  · cases hv : (detail.mirrored_region.is_mirroring_valid m r1 r2).1
    · rfl
    · exact absurd (key hv).2.1 h
  · cases hv : (detail.mirrored_region.is_mirroring_valid m r1 r2).1
    · rfl
    · exact absurd (key hv).2.2 h
  · unfold default_allocator_backend.allocate_mapped at hp
    rcases hv : detail.mirrored_region.is_mirroring_valid m r1 r2 with ⟨b, m1⟩
    rw [hv] at hp
    cases b
    · simp at hp
    · simp only [Option.some.injEq] at hp
      exact ⟨hp.symm, rfl⟩

theorem mirror_check_sound_witness :
    (detail.mirrored_region.is_mirroring_valid mirrored_memory lower_half upper_half).1 = true ∧
    mirrored_memory.backing 0 = mirrored_memory.backing 4096 ∧
    (detail.mirrored_region.is_mirroring_valid plain_memory lower_half upper_half).1 = false ∧
    (default_allocator_backend.allocate_mapped plain_memory lower_half upper_half).1 = none :=
  ⟨by decide,
   ((mirror_check_sound mirrored_memory lower_half upper_half).1 (by decide)).2.1,
   (mirror_check_sound plain_memory lower_half upper_half).2.2.1 (by decide),
   by decide⟩

/-- C18 (type-safety gate): for every element size `s` with `1 <= s < 2^64` and every
alignment `a`: the code's test `2^63 mod s == 0` holds exactly when `s = 2^k` for some
`k <= 63`; `2^countr_zero(s)` is the largest power of two dividing `s`; the
`static_assert` passes exactly when `s` is such a power of two or `a` is at most
`2^countr_zero(s)`; and `begin()` takes the pointer-index path exactly when `s` is such a
power of two, the modular byte path otherwise. -/
theorem type_safety_gate (T : value_type) (h1 : 1 ≤ T.sizeof) (h2 : T.sizeof < 2 ^ 64) :
    (array.sizeof_value_type_is_power_of T = true ↔ ∃ k, k ≤ 63 ∧ T.sizeof = 2 ^ k) ∧
    (2 ^ array.countr_zero T.sizeof ∣ T.sizeof ∧
      ∀ k, 2 ^ k ∣ T.sizeof → k ≤ array.countr_zero T.sizeof) ∧
    (array.value_type_has_acceptable_alignment T = true ↔
      T.alignof ≤ 2 ^ array.countr_zero T.sizeof) ∧
    (array.wraps_safely T = true ↔
      (∃ k, k ≤ 63 ∧ T.sizeof = 2 ^ k) ∨ T.alignof ≤ 2 ^ array.countr_zero T.sizeof) ∧
    (∀ a : array, a.T = T →
      ((∃ k, k ≤ 63 ∧ T.sizeof = 2 ^ k) → a.begin = (a.pos_ % a.capacity_) * a.T.sizeof) ∧
      ((¬ ∃ k, k ≤ 63 ∧ T.sizeof = 2 ^ k) →
        a.begin = detail.mulmod a.pos_ a.T.sizeof a.buffer_size_)) := by
  have hp := array.power_test_iff T
  have ha : array.value_type_has_acceptable_alignment T = true ↔
      T.alignof ≤ 2 ^ array.countr_zero T.sizeof := by
    simp [array.value_type_has_acceptable_alignment, Nat.one_shiftLeft]
  refine ⟨hp, array.countr_zero_spec T.sizeof h1 h2, ha, ?_,
    fun a hT => ⟨fun h => ?_, fun h => ?_⟩⟩
  · simp only [array.wraps_safely, Bool.or_eq_true]
    rw [hp, ha]
  · subst hT
    exact array.begin_fast a (hp.2 h)
  · subst hT
    have : ¬ array.sizeof_value_type_is_power_of a.T = true := fun hc => h (hp.1 hc)
    simp [array.begin, this]

theorem type_safety_gate_witness :
    1 ≤ char3.sizeof ∧ char3.sizeof < 2 ^ 64 ∧
    array.countr_zero char3.sizeof = 0 ∧
    array.wraps_safely char3 = true ∧
    (array.sizeof_value_type_is_power_of char3 = true ↔
      ∃ k, k ≤ 63 ∧ char3.sizeof = 2 ^ k) :=
  ⟨by decide, by decide, by decide, by decide,
   (type_safety_gate char3 (by decide) (by decide)).1⟩

/-- C19 (page rounding): for `measure >= 1`, `detail::roundup(value, measure)` is the
least multiple of `measure` that is `>= value`; hence `allocate_at_least(n)` returns as
byte size the least multiple of the page size `>= n*sizeof(T)`, with
`count == byte_size / sizeof(T)`, so `count*sizeof(T) <= byte_size < (count+1)*sizeof(T)`. -/
theorem roundup_least_multiple (value measure : Nat) (T : value_type) (pagesize n : Nat)
    (hm : 0 < measure) (hp : 0 < pagesize) (hs : 0 < T.sizeof) :
    (measure ∣ detail.roundup value measure ∧ value ≤ detail.roundup value measure ∧
      ∀ m, measure ∣ m → value ≤ m → detail.roundup value measure ≤ m) ∧
    (pagesize ∣ (allocator.allocate_at_least T pagesize n).size ∧
      n * T.sizeof ≤ (allocator.allocate_at_least T pagesize n).size ∧
      ∀ m, pagesize ∣ m → n * T.sizeof ≤ m →
        (allocator.allocate_at_least T pagesize n).size ≤ m) ∧
    (allocator.allocate_at_least T pagesize n).count
      = (allocator.allocate_at_least T pagesize n).size / T.sizeof ∧
    (allocator.allocate_at_least T pagesize n).count * T.sizeof
      ≤ (allocator.allocate_at_least T pagesize n).size ∧
    (allocator.allocate_at_least T pagesize n).size
      < ((allocator.allocate_at_least T pagesize n).count + 1) * T.sizeof := by
  refine ⟨⟨array.roundup_dvd _ _, array.roundup_ge _ _ hm,
      fun m hd hx => array.roundup_least _ _ m hm hd hx⟩,
    ⟨array.roundup_dvd _ _, array.roundup_ge _ _ hp,
      fun m hd hx => array.roundup_least _ _ m hp hd hx⟩, rfl, Nat.div_mul_le_self _ _, ?_⟩
  exact Nat.lt_mul_of_div_lt (Nat.lt_succ_self _) hs

theorem roundup_least_multiple_witness :
    detail.roundup 10 4 = 12 ∧
    (allocator.allocate_at_least char3 4096 1).size = 4096 ∧
    (allocator.allocate_at_least char3 4096 1).count = 1365 ∧
    (allocator.allocate_at_least char3 4096 1).count * char3.sizeof
      ≤ (allocator.allocate_at_least char3 4096 1).size :=
  ⟨by decide, by decide, by decide,
   (roundup_least_multiple 10 4 char3 4096 1 (by decide) (by decide) (by decide)).2.2.2.1⟩

/-- C20 (allocation and deallocation agree on the mapped size): for every requested
count `n`, element size `s >= 1` and page size `p >= 1`, with `B = roundup(n*s, p)` the
byte size mapped at construction and `C = B / s` the stored capacity, the byte size the
destructor passes on, `roundup(C*s, p)`, is `B`; so for a block at address `base` the
deallocation of an array of this type and capacity unmaps `[base+B, base+2B)`,
`[base, base+B)` and then the whole `[base, base+2B)`, also when `C > n` or `C*s < B`. -/
theorem deallocation_size_agrees (T : value_type) (p n base : Nat) (hs : 0 < T.sizeof)
    (hp : 0 < p) :
    (array.create T p n).data_.bytes = detail.roundup (n * T.sizeof) p ∧
    (array.create T p n).capacity_ = detail.roundup (n * T.sizeof) p / T.sizeof ∧
    detail.roundup (allocator.array_size T (array.create T p n).capacity_) p
      = detail.roundup (n * T.sizeof) p ∧
    ((array.create T p n).destructor p base).1 = .ok
      [(base + detail.roundup (n * T.sizeof) p, detail.roundup (n * T.sizeof) p),
       (base, detail.roundup (n * T.sizeof) p),
       (base, detail.roundup (n * T.sizeof) p * 2)] ∧
    (∀ a : array, a.T = T → a.capacity_ = (array.create T p n).capacity_ →
      allocator.deallocate a.T p base a.capacity_ =
        [(base + detail.roundup (n * T.sizeof) p, detail.roundup (n * T.sizeof) p),
         (base, detail.roundup (n * T.sizeof) p),
         (base, detail.roundup (n * T.sizeof) p * 2)]) := by
  have h := array.roundup_capacity T.sizeof p n hs hp
  refine ⟨rfl, rfl, h, ?_, fun a hT hc => ?_⟩
  swap
  · have h2 : detail.roundup (allocator.array_size T (array.create T p n).capacity_) p
        = detail.roundup (n * T.sizeof) p := h
    rw [hT, hc]
    simp only [allocator.deallocate, default_allocator_backend.deallocate,
      detail.mirrored_region.deallocate_mirror, h2]
  have hd : array.destruct (array.create T p n) (array.create T p n).end_
      (array.create T p n).begin = (.ok (), array.create T p n) := by
    have he : (array.create T p n).end_ = (array.create T p n).begin := by
      simp [array.end_, array.create, array.of_allocation]
    rw [he, array.destruct, Nat.sub_self, array.destruct_loop, if_pos rfl]
  simp only [array.destructor, hd, allocator.deallocate, default_allocator_backend.deallocate,
    detail.mirrored_region.deallocate_mirror]
  have h2 : detail.roundup (allocator.array_size (array.create T p n).T
      (array.create T p n).capacity_) p = detail.roundup (n * T.sizeof) p := h
  rw [h2]

theorem deallocation_size_agrees_witness :
    (array.create char3 4096 1).capacity_ = 1365 ∧
    allocator.array_size char3 (array.create char3 4096 1).capacity_ = 4095 ∧
    ((array.create char3 4096 1).destructor 4096 65536).1
      = .ok [(65536 + 4096, 4096), (65536, 4096), (65536, 8192)] :=
  ⟨by decide, by decide,
   (deallocation_size_agrees char3 4096 1 65536 (by decide) (by decide)).2.2.2.1.trans
     (by decide)⟩

end infinite

namespace infinite

/-- C21: on the fast path nothing of the block is left over.  For an element size
`2 ^ j`, a page size `2 ^ k` and any requested count `n`, `allocate_at_least` returns
`size = roundup(n * sizeof(T), pagesize)`, `count = size / sizeof(T)` and a block of
`size` bytes, and `count * sizeof(T) = size` exactly.  Hence for every `pos` the index
`pos % count` scaled by the element size is the byte offset `pos * sizeof(T)` reduced
modulo `size`, and when the size passes the test of the code (`j ≤ 63`) `begin()` of
any array over this allocation is that offset. -/
theorem no_slack_on_fast_path (T : value_type) (j k n : Nat) (hs : T.sizeof = 2 ^ j) :
    (allocator.allocate_at_least T (2 ^ k) n).size = detail.roundup (n * T.sizeof) (2 ^ k) ∧
    (allocator.allocate_at_least T (2 ^ k) n).count =
      (allocator.allocate_at_least T (2 ^ k) n).size / T.sizeof ∧
    (allocator.allocate_at_least T (2 ^ k) n).ptr.bytes =
      (allocator.allocate_at_least T (2 ^ k) n).size ∧
    (allocator.allocate_at_least T (2 ^ k) n).count * T.sizeof =
      (allocator.allocate_at_least T (2 ^ k) n).size ∧
    (array.create T (2 ^ k) n).capacity_ * T.sizeof = (array.create T (2 ^ k) n).data_.bytes ∧
    (∀ pos, (pos % (allocator.allocate_at_least T (2 ^ k) n).count) * T.sizeof =
      (pos * T.sizeof) % (allocator.allocate_at_least T (2 ^ k) n).size) ∧
    (j ≤ 63 → array.sizeof_value_type_is_power_of T = true ∧
      ∀ a : array, a.T = T → a.capacity_ = (allocator.allocate_at_least T (2 ^ k) n).count →
        a.begin = (a.pos_ * T.sizeof) % (allocator.allocate_at_least T (2 ^ k) n).size) := by
  have hd : T.sizeof ∣ detail.roundup (n * T.sizeof) (2 ^ k) := by
    rw [hs]; exact array.pow_dvd_roundup j k n
  have hc : (allocator.allocate_at_least T (2 ^ k) n).count * T.sizeof =
      (allocator.allocate_at_least T (2 ^ k) n).size := Nat.div_mul_cancel hd
  have hm : ∀ pos, (pos % (allocator.allocate_at_least T (2 ^ k) n).count) * T.sizeof =
      (pos * T.sizeof) % (allocator.allocate_at_least T (2 ^ k) n).size := by
    intro pos
    rw [← hc, Nat.mul_mod_mul_right]
  refine ⟨rfl, rfl, rfl, hc, hc, hm, fun hj => ?_⟩
  have hp := array.power_test_of_pow T j hj hs
  refine ⟨hp, fun a hT hcap => ?_⟩
  subst hT
  rw [array.begin_fast a hp, hcap]
  exact hm a.pos_

/-- The fast path for `array<unsigned long long> a(4096)` with pages of 4096 bytes:
4096 slots of 8 bytes fill the 32768 bytes of the block, and the window of
`single_state` starts at the byte offset of its position. -/
theorem no_slack_on_fast_path_witness :
    ulonglong.sizeof = 2 ^ 3 ∧
    (allocator.allocate_at_least ulonglong (2 ^ 12) 4096).count = 4096 ∧
    (allocator.allocate_at_least ulonglong (2 ^ 12) 4096).size = 32768 ∧
    (allocator.allocate_at_least ulonglong (2 ^ 12) 4096).count * ulonglong.sizeof =
      (allocator.allocate_at_least ulonglong (2 ^ 12) 4096).size ∧
    (4097 % (allocator.allocate_at_least ulonglong (2 ^ 12) 4096).count) * ulonglong.sizeof =
      (4097 * ulonglong.sizeof) % (allocator.allocate_at_least ulonglong (2 ^ 12) 4096).size ∧
    single_state.begin = (single_state.pos_ * ulonglong.sizeof) %
      (allocator.allocate_at_least ulonglong (2 ^ 12) 4096).size :=
  ⟨by decide, by decide, by decide,
   (no_slack_on_fast_path ulonglong 3 12 4096 (by decide)).2.2.2.1,
   (no_slack_on_fast_path ulonglong 3 12 4096 (by decide)).2.2.2.2.2.1 4097,
   ((no_slack_on_fast_path ulonglong 3 12 4096 (by decide)).2.2.2.2.2.2 (by decide)).2
     single_state rfl (by decide)⟩

/-- C22: the alignment test accepts every object type.  For a size `1 ≤ sizeof(T) < 2 ^ 64`
and an alignment that is a power of two and divides the size, `alignof(T)` is at most
`2 ^ countr_zero(sizeof(T))`, so `value_type_has_acceptable_alignment()` is true and
the condition of the `static_assert` holds, whether or not the size is a power of
two. -/
theorem alignment_gate_never_rejects (T : value_type) (m : Nat)
    (h1 : 1 ≤ T.sizeof) (h2 : T.sizeof < 2 ^ 64)
    (ha : T.alignof = 2 ^ m) (hd : T.alignof ∣ T.sizeof) :
    T.alignof ≤ 2 ^ array.countr_zero T.sizeof ∧
    array.value_type_has_acceptable_alignment T = true ∧
    array.wraps_safely T = true := by
  have hle : T.alignof ≤ 2 ^ array.countr_zero T.sizeof := by
    rw [ha] at hd ⊢
    exact array.pow_le_of_dvd_sizeof T.sizeof m h1 h2 hd
  have hv : array.value_type_has_acceptable_alignment T = true := by
    simp only [array.value_type_has_acceptable_alignment, Nat.one_shiftLeft, decide_eq_true_eq]
    exact hle
  refine ⟨hle, hv, ?_⟩
  simp only [array.wraps_safely, hv, Bool.or_true]

/-- Three `int`s: the size 12 is not a power of two, the alignment 4 divides it, and the
type passes the alignment test with nothing to spare. -/
theorem alignment_gate_never_rejects_witness :
    1 ≤ int3.sizeof ∧ int3.sizeof < 2 ^ 64 ∧ int3.alignof = 2 ^ 2 ∧
    int3.alignof ∣ int3.sizeof ∧
    array.sizeof_value_type_is_power_of int3 = false ∧
    array.countr_zero int3.sizeof = 2 ∧
    array.value_type_has_acceptable_alignment int3 = true ∧
    array.wraps_safely int3 = true :=
  ⟨by decide, by decide, by decide, by decide, by decide, by decide,
   (alignment_gate_never_rejects int3 2 (by decide) (by decide) (by decide) (by decide)).2.1,
   (alignment_gate_never_rejects int3 2 (by decide) (by decide) (by decide) (by decide)).2.2⟩

end infinite
